import Mathlib

/-!
Verification of the GEDCOM family-tree editor (gedcom.js / gedcom_edit.js /
gedcom_export.js) against its natural-language specification.

The JavaScript source is shallowly embedded: strings are lists of characters,
JS objects of class `FamilyRow` become an inductive tree, the `level` field
(which in JS holds either a string, a number, or `undefined`) becomes an
explicit sum type, JS `Map`s become insertion-ordered association lists, and
thrown `TypeError`s become explicit error results.  Unbounded JS loops and
recursions are embedded with explicit fuel; bounded loops are structural.
-/

/-- Characters of a JS string.  All JS string primitives used by the source
(`split(' ')`, `trim()`, `join(' ')`, `charAt(0)`, regex search) are
re-implemented below on this representation. -/
abbrev Str := List Char

/-- Whitespace for `String.prototype.trim` (space, tab, CR, LF cover every
character appearing in the inputs considered here). -/
def jsWs (c : Char) : Bool :=
  c = ' ' || c = '\t' || c = '\n' || c = '\r'

/-- `s.trim()`: drop whitespace from both ends. -/
def jsTrim (s : Str) : Str :=
  ((s.dropWhile jsWs).reverse.dropWhile jsWs).reverse

/-- `s.split(' ')`: split on single spaces; adjacent separators produce empty
 tokens, and the result is never the empty list (`"".split(' ')` is `[""]`). -/
def jsSplitSpace : Str → List Str
  | [] => [[]]
  | c :: rest =>
    if c = ' ' then [] :: jsSplitSpace rest
    else
      match jsSplitSpace rest with
      | t :: ts => (c :: t) :: ts
      | [] => [[c]]

/-- `arr.join(' ')`. -/
def joinSpace : List Str → Str
  | [] => []
  | [t] => t
  | t :: ts => t ++ ' ' :: joinSpace ts

/-- `tmp.charAt(0) === '@'` (false on the empty string). -/
def startsWithAt : Str → Bool
  | '@' :: _ => true
  | _ => false

/-- Helper for the regex `/@[^@]+@/`: an opening `@` and at least one
non-`@` character have been consumed; scan for the closing `@`. -/
def patClose : Str → Bool
  | [] => false
  | c :: rest => if c = '@' then true else patClose rest

/-- Helper for the regex `/@[^@]+@/`: an opening `@` has been consumed; the
next character must not be `@`, then a closing `@` must occur. -/
def patAfterAt : Str → Bool
  | [] => false
  | c :: rest => if c = '@' then false else patClose rest

/-- `value.match(/@[^@]+@/)` as a Boolean: search anywhere in the string. -/
def hasIdPat : Str → Bool
  | [] => false
  | c :: rest => (c = '@' && patAfterAt rest) || hasIdPat rest

/-- Decimal digit value. -/
def digitVal (c : Char) : Option Nat :=
  if c.isDigit then some (c.toNat - 48) else none

/-- Fold decimal digits into a number; `none` on any non-digit. -/
def parseDigitsAux : Nat → Str → Option Nat
  | acc, [] => some acc
  | acc, c :: rest =>
    match digitVal c with
    | some d => parseDigitsAux (acc * 10 + d) rest
    | none => none

/-- All-digit string to number (`none` if empty or containing a non-digit). -/
def parseDigits : Str → Option Nat
  | [] => none
  | s => parseDigitsAux 0 s

/-- JS `ToNumber` on a string, restricted to the optionally-signed decimal
integers (plus whitespace and the empty string, which JS maps to 0) that the
source ever feeds to arithmetic; `none` plays the role of `NaN`. -/
def jsToNumber (s : Str) : Option Int :=
  match jsTrim s with
  | [] => some 0
  | '-' :: rest => (parseDigits rest).map (fun n => -(n : Int))
  | t => (parseDigits t).map (fun n => (n : Int))

/-- The JS `level` field: `formatLine` stores the raw string token, the edit
operations store a number, and the `FamilyRow` constructor can leave it
absent. -/
inductive JsLevel where
  | undef
  | str (s : Str)
  | num (n : Int)
  deriving DecidableEq, Repr

/-- `ToNumber` of a level value (`undefined` gives `NaN`, i.e. `none`). -/
def JsLevel.toNum : JsLevel → Option Int
  | .undef => none
  | .str s => jsToNumber s
  | .num n => some n

/-- JS loose comparison `level == 0` (used by `FamilyRow.toString`). -/
def JsLevel.looseEqZero (l : JsLevel) : Bool :=
  l.toNum == some 0

/-- JS strict comparison `level === -1` (used by `findRoot`): true only for a
numeric level, never for the string `"-1"` that `formatLine` stores. -/
def JsLevel.strictEqNeg1 : JsLevel → Bool
  | .num n => n == -1
  | _ => false

/-- The string-concatenation value of a level
(`this.level !== undefined ? this.level : ""`). -/
def JsLevel.render : JsLevel → Str
  | .undef => []
  | .str s => s
  | .num n => (toString n).toList

/-- JS `a > b` on two numbers where `none` is `NaN` (every comparison with
`NaN` is false).  Used for `parent_elem.level > element.level - 1`. -/
def optGT : Option Int → Option Int → Bool
  | some a, some b => a > b
  | _, _ => false

mutual
/-- A child slot of a record: the same property either holds a single
`FamilyRow` or an array of them (`parseLine` stores relationship tags as
arrays from the start and converts other tags to arrays on the second
occurrence). -/
inductive Entry where
    | one (r : FamilyRow)
    | many (rs : List FamilyRow)
/-- The universal record type of the source (`class FamilyRow`): scalar
fields `level`/`id`/`tag`/`value` plus the child properties in insertion
order.  The `indviduals`/`families` maps, the `visited` flag, the `rowLevel`
field and the `parent` back-reference that the JS constructor also installs
are modelled separately (as the `GraphIndex` structure, layout side tables,
and the explicit parse/ancestor stacks). -/
inductive FamilyRow where
    | mk (level : JsLevel) (id tag value : Option Str)
         (children : List (Str × Entry))
end

def FamilyRow.level : FamilyRow → JsLevel
  | .mk l _ _ _ _ => l

def FamilyRow.id : FamilyRow → Option Str
  | .mk _ i _ _ _ => i

def FamilyRow.tag : FamilyRow → Option Str
  | .mk _ _ t _ _ => t

def FamilyRow.value : FamilyRow → Option Str
  | .mk _ _ _ v _ => v

def FamilyRow.children : FamilyRow → List (Str × Entry)
  | .mk _ _ _ _ ch => ch

/-- Property read `r[key]` restricted to the child slots. -/
def FamilyRow.child (r : FamilyRow) (k : Str) : Option Entry :=
  (r.children.find? (fun p => p.1 == k)).map (fun p => p.2)

/-- Replace the children list (used by the parse zipper when a child closes
into its parent). -/
def FamilyRow.setChildren : FamilyRow → List (Str × Entry) → FamilyRow
  | .mk l i t v _, ch => .mk l i t v ch

/-- `new FamilyRow(level, id, tag, value)` (children start empty; `null` and
`undefined` arguments leave the field absent). -/
def mkFamilyRow (level : JsLevel) (id tag value : Option Str) : FamilyRow :=
  .mk level id tag value []

/-- The five tags that `parseLine` always stores as arrays. -/
def relTags : List Str :=
  ["FAMS".toList, "FAMC".toList, "CHIL".toList, "HUSB".toList, "WIFE".toList]

/-- Key used when a record has no tag (`parent_elem[undefined]` reads the JS
property literally named `"undefined"`). -/
def undefKey : Str := "undefined".toList

/-- The body of `formatLine` after `line.split(' ')`: first token is the
level, a second token starting with `@` is the id, the next token is the tag,
and the whitespace-joined remaining tokens are the value UNLESS they match
`/@[^@]+@/`, in which case they overwrite the id and the value stays absent.
A single-token line throws inside the `try` block after only `level` was
assigned, so only the level is set. -/
def finishTag (lvl : Str) (id0 : Option Str) (tag1 : Str) (rest : List Str) :
    FamilyRow :=
  if rest.length > 0 then
    let v := joinSpace rest
    if hasIdPat v then mkFamilyRow (.str lvl) (some v) (some tag1) none
    else mkFamilyRow (.str lvl) id0 (some tag1) (some v)
  else mkFamilyRow (.str lvl) id0 (some tag1) none

def formatTokens : List Str → FamilyRow
  | [] => mkFamilyRow .undef none none none
  | lvl :: rest =>
    match rest with
    | [] => mkFamilyRow (.str lvl) none none none
    | tmp :: rest2 =>
      if startsWithAt tmp then
        match rest2 with
        | [] => mkFamilyRow (.str lvl) (some tmp) none none
        | tag1 :: rest3 => finishTag lvl (some tmp) tag1 rest3
      else finishTag lvl none tmp rest2

/-- `formatLine(line)`. -/
def formatLine (line : Str) : FamilyRow :=
  formatTokens (jsSplitSpace line)

/-- `parseLine`'s attachment of a new child under `parent_elem[element.tag]`:
append to an existing array, convert an existing single record to a
two-element array, create a one-element array for relationship tags, and
store a single record otherwise.  An existing key keeps its position (JS
property order); a new key is appended. -/
def insertChild (ch : List (Str × Entry)) (key : Str) (el : FamilyRow) :
    List (Str × Entry) :=
  match ch with
  | [] =>
    if relTags.contains key then [(key, .many [el])] else [(key, .one el)]
  | (k, e) :: rest =>
    if k == key then
      match e with
      | .many xs => (k, .many (xs ++ [el])) :: rest
      | .one x => (k, .many [x, el]) :: rest
    else (k, e) :: insertChild rest key el

/-- Close the deepest open record into its parent frame (in the JS source the
child was attached to the parent object when it was first parsed; in this
zipper embedding a node no longer on the `lastElement` ancestor chain is
never mutated again, so the attachment is performed when it leaves the
chain — the resulting tree is the same). -/
def close1 (child parent : FamilyRow) : FamilyRow :=
  parent.setChildren
    (insertChild parent.children (child.tag.getD undefKey) child)

/-- The parent walk `while (parent_elem.level > element.level - 1)
parent_elem = parent_elem.parent`, on the stack of open records (deepest
candidate first).  Walking past the synthetic root would dereference
`undefined.level` and throw in JS; that is unreachable for the inputs
considered here (every line level is at least 0), and this embedding then
simply stops at the root. -/
def walkClose (lvM1 : Option Int) (f : FamilyRow) :
    List FamilyRow → FamilyRow × List FamilyRow
  | [] => (f, [])
  | g :: rest =>
    if optGT f.level.toNum lvM1 then walkClose lvM1 (close1 f g) rest
    else (f, g :: rest)

/-- One line of `parse`'s loop: find the parent by the level walk and make
the new element the deepest open record (`lastElement`). -/
def parseStep (st : FamilyRow × List FamilyRow) (el : FamilyRow) :
    FamilyRow × List FamilyRow :=
  let lvM1 := el.level.toNum.map (fun n => n - 1)
  let (p, anc) := walkClose lvM1 st.1 st.2
  (el, p :: anc)

/-- After the last line, close every still-open record into its ancestor and
return the root. -/
def closeAll : FamilyRow → List FamilyRow → FamilyRow
  | f, [] => f
  | f, g :: rest => closeAll (close1 f g) rest

/-- The built-in default starter tree used when no input lines are supplied
(gedcom.js: "You", "Your Father", "Your Mother" linked by one family; an
older bundled copy of the same file carries a single-person default
instead). -/
def defaultLines : List Str :=
  [ "0 HEAD".toList
  , "1 SOUR GEDCOM Family Tree Editor".toList
  , "2 WWW https://github.com".toList
  , "1 FILE Family Tree".toList
  , "1 DATE 01 Feb 2026".toList
  , "1 DEST ANSTFILE".toList
  , "1 GEDC".toList
  , "2 VERS 5.5.1".toList
  , "2 FORM LINEAGE-LINKED".toList
  , "0 @I1@ INDI".toList
  , "1 NAME You".toList
  , "1 SEX M".toList
  , "1 FAMC @F1@".toList
  , "0 @I2@ INDI".toList
  , "1 NAME Your Father".toList
  , "1 SEX M".toList
  , "1 FAMS @F1@".toList
  , "0 @I3@ INDI".toList
  , "1 NAME Your Mother".toList
  , "1 SEX F".toList
  , "1 FAMS @F1@".toList
  , "0 @F1@ FAM".toList
  , "1 HUSB @I2@".toList
  , "1 WIFE @I3@".toList
  , "1 CHIL @I1@".toList
  , "0 TRLR".toList ]

/-- The synthetic root line `formatLine("-1 TOP")`. -/
def topLine : Str := "-1 TOP".toList

/-- `parse()`: substitute the default lines when the input is missing or
empty, then trim, drop blank lines, and fold `parseLine` over
`formatLine(line.trim())` starting from the synthetic root. -/
def parse (input : Option (List Str)) : FamilyRow :=
  let lines :=
    match input with
    | none => defaultLines
    | some [] => defaultLines
    | some ls => ls
  let toks := (lines.map jsTrim).filter (fun l => l.length > 0)
  let st := toks.foldl (fun st l => parseStep st (formatLine (jsTrim l)))
    (formatLine topLine, [])
  closeAll st.1 st.2

/-- `FamilyRow.prototype.toString`: level, then the id when the level is
loosely equal to 0, then the tag, then the id when the level is not loosely
equal to 0, then the value, space separated. -/
def famToString (r : FamilyRow) : Str :=
  r.level.render
  ++ (if r.level.looseEqZero && r.id.isSome then ' ' :: r.id.getD [] else [])
  ++ (match r.tag with | some t => ' ' :: t | none => [])
  ++ (if (!r.level.looseEqZero) && r.id.isSome then ' ' :: r.id.getD []
      else [])
  ++ (match r.value with | some v => ' ' :: v | none => [])

mutual
/-- `createFileContentOne`: the record's own line followed by its children
in property order (the source concatenates the lines with a newline after
each; since `parse` immediately re-splits on newlines, the embedding keeps
the list of lines). Scalar properties, the maps, `visited`, `rowLevel` and
`parent` are skipped by the source's `typeof`/constructor-name checks and
are not part of `children` here. -/
def createFileContentOne : FamilyRow → List Str
    | .mk l i t v ch => famToString (.mk l i t v ch) :: serChildren ch
def serChildren : List (Str × Entry) → List Str
    | [] => []
    | (_, e) :: rest => serEntry e ++ serChildren rest
def serEntry : Entry → List Str
    | .one r => createFileContentOne r
    | .many rs => serMany rs
def serMany : List FamilyRow → List Str
    | [] => []
    | r :: rs => createFileContentOne r ++ serMany rs
end

/-- `createFileContent`: iterate the root's properties, putting a single
`HEAD` record first, a single `TRLR` record last, and everything else
(including every array-valued property) in the middle, each serialized by
`createFileContentOne`. -/
def createFileContent (top : FamilyRow) : List Str :=
  let acc := top.children.foldl
    (fun (acc : List Str × List Str × List Str) (p : Str × Entry) =>
      let (first, middle, last0) := acc
      match p.2 with
      | .one c =>
        if p.1 == "HEAD".toList then
          (first ++ createFileContentOne c, middle, last0)
        else if p.1 == "TRLR".toList then
          (first, middle, last0 ++ createFileContentOne c)
        else (first, middle ++ createFileContentOne c, last0)
      | .many cs => (first, middle ++ serMany cs, last0))
    ([], [], [])
  acc.1 ++ acc.2.1 ++ acc.2.2

/-- An element of the layout queue / of a row: a map-resident record is
identified by which map it lives in (`true` = families) and its map key.
JS object identity coincides with this pair because each map holds one
object per key and the maps are not mutated during a layout run. -/
abbrev QE := Bool × Option Str

/-- The derived lookup maps (`GraphIndex` of the specification):
`updateMapsForDisplay` stores `indviduals` and `families` on the root.
Represented as insertion-ordered association lists with JS `Map` semantics
(an existing key keeps its position, a new key is appended); the key is the
record's possibly-absent `id`, exactly as `set(indi.id, indi)` uses it. -/
structure GraphIndex where
  indviduals : List (Option Str × FamilyRow)
  families : List (Option Str × FamilyRow)

/-- `Map.prototype.set`. -/
def mapSet (m : List (Option Str × FamilyRow)) (k : Option Str)
    (v : FamilyRow) : List (Option Str × FamilyRow) :=
  match m with
  | [] => [(k, v)]
  | (k0, v0) :: rest =>
    if k0 == k then (k0, v) :: rest else (k0, v0) :: mapSet rest k v

/-- `Map.prototype.get`. -/
def mapGet (m : List (Option Str × FamilyRow)) (k : Option Str) :
    Option FamilyRow :=
  (m.find? (fun p => p.1 == k)).map (fun p => p.2)

/-- Normalize a single-or-array property to a list (absent gives `[]`). -/
def entryListOf : Option Entry → List FamilyRow
  | none => []
  | some (.one r) => [r]
  | some (.many rs) => rs

/-- `updateMapsForDisplay`: rebuild both maps from the root's `INDI` and
`FAM` properties, handling the single-record and array representations. -/
def updateMapsForDisplay (top : FamilyRow) : GraphIndex :=
  { indviduals :=
      (entryListOf (top.child "INDI".toList)).foldl
        (fun m r => mapSet m r.id r) []
  , families :=
      (entryListOf (top.child "FAM".toList)).foldl
        (fun m r => mapSet m r.id r) [] }

/-- `getIdFromNode`: the id of the property's record, or of its first array
element; absent property (or absent id) gives `null`.  (`parse` never
creates empty arrays, so `[0].id` on an empty array — a JS `TypeError` — is
collapsed to `null` here.) -/
def getIdFromNode (r : FamilyRow) (tagName : Str) : Option Str :=
  match r.child tagName with
  | some (.one x) => x.id
  | some (.many xs) => xs.head?.bind FamilyRow.id
  | none => none

/-- Result of the fuelled embedding of the recursive `findParentOfParent`:
a returned value, a thrown `TypeError`, or fuel exhaustion (`spin`), meaning
the JS recursion is still running after that many self-calls. -/
inductive PoPRes where
  | found (r : Option FamilyRow)
  | thrown (msg : Str)
  | spin

/-- `findParentOfParent`: from an individual, follow `FAMC` to the family
and the family's `HUSB` to the father, recursively, returning the last
individual reached (or `null` for a non-individual start).  A `FAMC` id that
does not resolve in `families` makes the source call `getIdFromNode` on
`undefined`, which throws.  The recursion carries no step bound in the
source; `fuel` counts self-calls. -/
def findParentOfParentF (idx : GraphIndex) :
    Nat → Option FamilyRow → PoPRes
  | 0, _ => .spin
  | _ + 1, none => .found none
  | fuel + 1, some cur =>
    if cur.tag == some "INDI".toList then
      match getIdFromNode cur "FAMC".toList with
      | some pf =>
        match mapGet idx.families (some pf) with
        | none =>
          .thrown "TypeError: cannot read properties of undefined".toList
        | some fam =>
          match getIdFromNode fam "HUSB".toList with
          | some pid =>
            match mapGet idx.indviduals (some pid) with
            | some p => findParentOfParentF idx fuel (some p)
            | none => .found (some cur)
          | none => .found (some cur)
      | none => .found (some cur)
    else .found none

/-- Mutable traversal state of a layout run: the global `queueForNext`, the
`visited` flags and `rowLevel` fields of the map-resident records (side
tables keyed like the maps), the global `orderInLevel` (row level to ordered
elements), and the messages passed to `alert`. -/
structure LayoutState where
  queue : List QE
  visitedI : List (Option Str)
  visitedF : List (Option Str)
  rowI : List (Option Str × Int)
  rowF : List (Option Str × Int)
  rows : List (Int × List QE)
  alerts : List Str

def LayoutState.empty : LayoutState :=
  { queue := [], visitedI := [], visitedF := [], rowI := [], rowF := []
  , rows := [], alerts := [] }

/-- Read a record's `rowLevel` (initially `NOT_SET = -1`). -/
def getRowLevel (st : LayoutState) (isFam : Bool) (k : Option Str) : Int :=
  let tbl := if isFam then st.rowF else st.rowI
  ((tbl.find? (fun p => p.1 == k)).map (fun p => p.2)).getD (-1)

/-- Assign a record's `rowLevel`. -/
def setRowLevel (st : LayoutState) (isFam : Bool) (k : Option Str)
    (v : Int) : LayoutState :=
  let upd := fun (tbl : List (Option Str × Int)) =>
    if tbl.any (fun p => p.1 == k) then
      tbl.map (fun p => if p.1 == k then (p.1, v) else p)
    else tbl ++ [(k, v)]
  if isFam then { st with rowF := upd st.rowF }
  else { st with rowI := upd st.rowI }

/-- Is the record's `visited` flag set? -/
def isVisited (st : LayoutState) (isFam : Bool) (k : Option Str) : Bool :=
  if isFam then st.visitedF.contains k else st.visitedI.contains k

/-- The numeric value of a record's `ORDER` field (`a.ORDER.value` coerced by
the subtraction in the sort comparator); `none` when the field or its value
is absent or non-numeric. -/
def orderNum (r : FamilyRow) : Option Int :=
  match r.child "ORDER".toList with
  | some (.one x) => x.value.bind jsToNumber
  | _ => none

/-- The sort comparator of `addElementsToQueue`: numeric difference when both
records carry an `ORDER` value, and 0 (no reordering) otherwise. -/
def orderCmp (a b : FamilyRow) : Int :=
  match orderNum a, orderNum b with
  | some x, some y => x - y
  | _, _ => 0

/-- Stable insertion used to model `Array.prototype.sort` (which is stable):
insert `x` after every earlier element not strictly greater than it. -/
def insStable (x : FamilyRow × Option Str) :
    List (FamilyRow × Option Str) → List (FamilyRow × Option Str)
  | [] => [x]
  | y :: ys =>
    if orderCmp y.1 x.1 > 0 then x :: y :: ys else y :: insStable x ys

/-- Stable sort by the `ORDER` comparator (the identity when no element
carries an `ORDER` value, as with every input considered here). -/
def jsSortStable (l : List (FamilyRow × Option Str)) :
    List (FamilyRow × Option Str) :=
  l.foldl (fun acc x => insStable x acc) []

/-- `addElementsToQueue`: normalize to an array, resolve each reference
through the chosen map, keep the resolved records that are not yet visited,
assign their `rowLevel` now (before they are dequeued), sort the batch by
`ORDER`, and push onto the queue. -/
def addElementsToQueue (elements : Option Entry) (level : Int)
    (isFam : Bool) (idx : GraphIndex) (st : LayoutState) : LayoutState :=
  match elements with
  | none => st
  | some e =>
    let els := match e with | .one x => [x] | .many xs => xs
    let acc := els.foldl
      (fun (acc : LayoutState × List (FamilyRow × Option Str)) x =>
        let (st, adds) := acc
        match (if isFam then mapGet idx.families x.id
               else mapGet idx.indviduals x.id) with
        | none => (st, adds)
        | some y =>
          if isVisited st isFam x.id then (st, adds)
          else (setRowLevel st isFam x.id level, adds ++ [(y, x.id)]))
      (st, [])
    let sorted := jsSortStable acc.2
    { acc.1 with queue := acc.1.queue ++ sorted.map (fun p => (isFam, p.2)) }

/-- `addNextElements`: from a family enqueue `HUSB`/`WIFE` at the same row
and `CHIL` one row below; from an individual enqueue `FAMS` at the same row
and `FAMC` one row above. -/
def addNextElements (r : FamilyRow) (lvl : Int) (idx : GraphIndex)
    (st : LayoutState) : LayoutState :=
  if r.tag == some "FAM".toList then
    let st := addElementsToQueue (r.child "HUSB".toList) lvl false idx st
    let st := addElementsToQueue (r.child "WIFE".toList) lvl false idx st
    addElementsToQueue (r.child "CHIL".toList) (lvl + 1) false idx st
  else if r.tag == some "INDI".toList then
    let st := addElementsToQueue (r.child "FAMS".toList) lvl true idx st
    addElementsToQueue (r.child "FAMC".toList) (lvl - 1) true idx st
  else st

/-- `getVisitedElement`: first visited individual of a reference list.  The
guard `elementList && elementList.length > 0` makes a single (non-array)
property fall through to `null`; a reference whose id is missing from
`indviduals` makes `top.indviduals.get(elem.id).visited` throw. -/
def getVisitedElementGo (idx : GraphIndex) (st : LayoutState) :
    List FamilyRow → Except Str (Option QE)
  | [] => .ok none
  | elem :: rest =>
    match mapGet idx.indviduals elem.id with
    | none => .error "TypeError: cannot read visited of undefined".toList
    | some _ =>
      if isVisited st false elem.id then .ok (some (false, elem.id))
      else getVisitedElementGo idx st rest

def getVisitedElement (entry : Option Entry) (idx : GraphIndex)
    (st : LayoutState) : Except Str (Option QE) :=
  match entry with
  | some (.many xs) =>
    if xs.length > 0 then getVisitedElementGo idx st xs else .ok none
  | _ => .ok none

/-- `idInList`: does the (array) reference list mention the id?  As in
`getVisitedElement`, a single non-array property fails the length guard. -/
def idInList (id : Option Str) : Option Entry → Bool
  | some (.many xs) => xs.length > 0 && xs.any (fun e => e.id == id)
  | _ => false

/-- The alert text of the dangling-`FAMS` branch (string concatenation with
an absent id renders `undefined`). -/
def noFamilyMsg (id : Option Str) : Str :=
  "Error in loaded data: No family node found in level 0 with id".toList
    ++ id.getD "undefined".toList

/-- The `FAMS` scan of `calculateDisplayPositions` for an individual being
placed: the first already-visited own family becomes the `insert before`
anchor when the individual is its `HUSB` and the `insert after` anchor when
it is its `WIFE`; an unresolvable family id raises an alert and the scan
continues. -/
def famsScan (selfId : Option Str) (idx : GraphIndex) :
    List FamilyRow → LayoutState → Option QE × Option QE × LayoutState
  | [], st => (none, none, st)
  | elem :: rest, st =>
    match mapGet idx.families elem.id with
    | none =>
      famsScan selfId idx rest
        { st with alerts := st.alerts ++ [noFamilyMsg elem.id] }
    | some orig =>
      if isVisited st true elem.id then
        if idInList selfId (orig.child "HUSB".toList) then
          (none, some (true, elem.id), st)
        else if idInList selfId (orig.child "WIFE".toList) then
          (some (true, elem.id), none, st)
        else famsScan selfId idx rest st
      else famsScan selfId idx rest st

/-- `RowInGraph.addAfter`: insert after the existing element, or push at the
end when it is not present. -/
def rowAddAfter (order : List QE) (newEl ex : QE) : List QE :=
  match order.findIdx? (fun q => q == ex) with
  | some i => order.take (i + 1) ++ newEl :: order.drop (i + 1)
  | none => order ++ [newEl]

/-- `RowInGraph.addBefore` (called with a possibly-`null` reference:
`indexOf(null)` is -1, which appends). -/
def rowAddBefore (order : List QE) (newEl : QE) (ex : Option QE) :
    List QE :=
  match ex with
  | none => order ++ [newEl]
  | some e =>
    match order.findIdx? (fun q => q == e) with
    | some i => order.take i ++ newEl :: order.drop i
    | none => order ++ [newEl]

/-- Store a row's order list under its level (JS `Map.set`). -/
def rowsSet (rows : List (Int × List QE)) (lvl : Int) (o : List QE) :
    List (Int × List QE) :=
  match rows with
  | [] => [(lvl, o)]
  | (k, v) :: rest =>
    if k == lvl then (k, o) :: rest else (k, v) :: rowsSet rest lvl o

/-- One dequeue of `calculateDisplayPositions` for a not-yet-visited element:
mark visited, expand neighbours, compute the anchors, and insert into the
row bucket. -/
def layoutVisit (isFam : Bool) (qid : Option Str) (r : FamilyRow)
    (idx : GraphIndex) (st : LayoutState) : Except Str LayoutState := do
  let st := if isFam then { st with visitedF := st.visitedF ++ [qid] }
            else { st with visitedI := st.visitedI ++ [qid] }
  let lvl := getRowLevel st isFam qid
  let st := addNextElements r lvl idx st
  let (prevEl, nextEl, st) ←
    if r.tag == some "FAM".toList then do
      let p ← getVisitedElement (r.child "HUSB".toList) idx st
      let n ← getVisitedElement (r.child "WIFE".toList) idx st
      pure (p, n, st)
    else if r.tag == some "INDI".toList then
      match r.child "FAMS".toList with
      | none => pure (none, none, st)
      | some e =>
        let xs := match e with | .one x => [x] | .many xs => xs
        pure (famsScan r.id idx xs st)
    else pure (none, none, st)
  let cur := ((st.rows.find? (fun p => p.1 == lvl)).map
    (fun p => p.2)).getD []
  let newOrder :=
    match prevEl with
    | some p => rowAddAfter cur (isFam, qid) p
    | none => rowAddBefore cur (isFam, qid) nextEl
  pure { st with rows := rowsSet st.rows lvl newOrder }

/-- The queue-drain loop of `calculateDisplayPositions`.  The JS `while` has
no bound; `fuel` bounds the number of iterations of this embedding, and
every run below is given enough fuel to drain its queue. -/
def layoutLoopF (idx : GraphIndex) : Nat → LayoutState →
    Except Str LayoutState
  | 0, _ => .error "OUT OF FUEL".toList
  | n + 1, st =>
    match st.queue with
    | [] => .ok st
    | (isFam, qid) :: qrest =>
      let st1 := { st with queue := qrest }
      match (if isFam then mapGet idx.families qid
             else mapGet idx.indviduals qid) with
      | none => layoutLoopF idx n st1
      | some r =>
        if isVisited st1 isFam qid then layoutLoopF idx n st1
        else
          match layoutVisit isFam qid r idx st1 with
          | .error m => .error m
          | .ok st2 => layoutLoopF idx n st2

/-- `resetRowLevel`: shift every row key and every assigned `rowLevel` down
by the minimum row key, so rows start at 0.  (The source subtracts the
minimum from the `rowLevel` of the records stored in the row buckets; every
record with an assigned `rowLevel` was placed in a bucket, so the side
tables are shifted wholesale.) -/
def resetRowLevel (st : LayoutState) : LayoutState :=
  match st.rows.map (fun p => p.1) with
  | [] => st
  | k :: ks =>
    let m := ks.foldl min k
    { st with
      rows := st.rows.map (fun p => (p.1 - m, p.2))
      rowI := st.rowI.map (fun p => (p.1, p.2 - m))
      rowF := st.rowF.map (fun p => (p.1, p.2 - m)) }

/-- `INIT_LEVEL`. -/
def INIT_LEVEL : Int := -10

/-- `display()`: parse (when needed), rebuild the maps, walk up from the
first individual with `findParentOfParent` (given fuel one more than the
number of individuals, enough for any terminating walk), seed the queue with
the found anchor at `INIT_LEVEL` (or alert "Nothing to display"), drain the
queue and normalize the rows. -/
def display (fuel : Nat) (input : Option (List Str)) :
    Except Str LayoutState :=
  let top := parse input
  let idx := updateMapsForDisplay top
  let first0 := (idx.indviduals.head?).map (fun p => p.2)
  match findParentOfParentF idx (idx.indviduals.length + 1) first0 with
  | .spin => .error "NONTERMINATION".toList
  | .thrown m => .error m
  | .found fo =>
    let st0 :=
      match fo with
      | some f =>
        { LayoutState.empty with
          queue := [(false, f.id)]
          rowI := [(f.id, INIT_LEVEL)] }
      | none =>
        { LayoutState.empty with
          alerts := ["Nothing to display".toList] }
    (layoutLoopF idx fuel st0).map resetRowLevel

/-- The normalized row of an element, read from the returned row map. -/
def rowOf (st : LayoutState) (q : QE) : Option Int :=
  (st.rows.find? (fun p => p.2.contains q)).map (fun p => p.1)

/-- Result of `findRoot` (gedcom_edit.js): the reached record, the
`"ERROR"` sentinel from the 100-step bound, or the JS `TypeError` raised by
reading `.level` after walking past the last ancestor. -/
inductive FindRootRes where
  | ok (r : FamilyRow)
  | errSentinel
  | thrown

/-- `findRoot`'s loop `while (iterator.level === -1) { iterator =
iterator.parent; if (maxStep-- === 0) return "ERROR"; }` over the explicit
ancestor chain of the starting record (the `parent` pointers).  The strict
comparison `=== -1` is false for the string level `"-1"` that `formatLine`
gives the synthetic root, so on parsed data the loop exits immediately. -/
def findRootGo : FamilyRow → List FamilyRow → Nat → FindRootRes
  | it, anc, maxStep =>
    if it.level.strictEqNeg1 = false then .ok it
    else
      match anc with
      | [] => if maxStep == 0 then .errSentinel else .thrown
      | p :: rest =>
        if maxStep == 0 then .errSentinel else findRootGo p rest (maxStep - 1)

/-- `findRoot(currentFamilyRow)` with its `maxStep = 100` bound. -/
def findRoot (it : FamilyRow) (anc : List FamilyRow) : FindRootRes :=
  findRootGo it anc 100

/-- Scenario A of the specification. -/
def scenarioALines : List Str :=
  [ "0 @I1@ INDI".toList, "1 NAME You".toList, "1 SEX M".toList
  , "1 FAMC @F1@".toList
  , "0 @I2@ INDI".toList, "1 NAME Father".toList, "1 SEX M".toList
  , "1 FAMS @F1@".toList
  , "0 @I3@ INDI".toList, "1 NAME Mother".toList, "1 SEX F".toList
  , "1 FAMS @F1@".toList
  , "0 @F1@ FAM".toList, "1 HUSB @I2@".toList, "1 WIFE @I3@".toList
  , "1 CHIL @I1@".toList ]

/-- The layout run on Scenario A. -/
def scenarioADisplay : Except Str LayoutState :=
  display 50 (some scenarioALines)

/-- The normalized row of an element of a layout result (`none` when the run
failed or the element was not placed). -/
def rowOfRes (res : Except Str LayoutState) (q : QE) : Option Int :=
  match res with
  | .ok st => rowOf st q
  | .error _ => none

/-- Claim C1: parsing the 16-line Scenario A input and running the layout
(`display`) places the family `@F1@` and the individuals `@I2@` and `@I3@`
in row 0 and the individual `@I1@` in row 1 of the returned row map. -/
theorem C1_scenarioA_layout_rows :
    rowOfRes scenarioADisplay (true, some "@F1@".toList) = some 0 ∧
    rowOfRes scenarioADisplay (false, some "@I2@".toList) = some 0 ∧
    rowOfRes scenarioADisplay (false, some "@I3@".toList) = some 0 ∧
    rowOfRes scenarioADisplay (false, some "@I1@".toList) = some 1 :=
  ⟨rfl, rfl, rfl, rfl⟩

/-- A cyclic paternal chain: `@I1@` is a child of `@F1@` whose husband is
`@I1@` again. -/
def cyclicLines : List Str :=
  [ "0 @I1@ INDI".toList, "1 FAMC @F1@".toList
  , "0 @F1@ FAM".toList, "1 HUSB @I1@".toList ]

def cyclicIdx : GraphIndex := updateMapsForDisplay (parse (some cyclicLines))

/-- The starting individual of the cyclic walk (the first map entry, as
`indviduals.values().next().value` picks it). -/
def cyclicStart : Option FamilyRow :=
  (cyclicIdx.indviduals.head?).map (fun p => p.2)

/-- On the cyclic chain, one self-call of `findParentOfParent` returns to
the same individual, so any amount of fuel is exhausted. -/
theorem fpp_cyclic_spin :
    ∀ fuel, findParentOfParentF cyclicIdx fuel cyclicStart = PoPRes.spin := by
  intro fuel
  induction fuel with
  | zero => rfl
  | succ n ih => exact ih

/-- Claim C2, counterexample: on the cyclic `FAMC` chain of `cyclicLines`,
the paternal root-discovery walk `findParentOfParent` is still running after
1000 recursive calls — it neither stops at a 100-step bound nor reports an
`"ERROR"` sentinel, contradicting the claimed termination behaviour. -/
theorem C2_counterexample :
    findParentOfParentF cyclicIdx 1000 cyclicStart = PoPRes.spin :=
  fpp_cyclic_spin 1000

/-- A record whose `level` is the number `-1` (only such records keep
`findRoot`'s loop running, since the comparison is strict). -/
def numNeg1Row : FamilyRow := mkFamilyRow (.num (-1)) none none none

set_option maxRecDepth 4000 in
/-- Claim C2, amended: the 100-step `"ERROR"` bound lives in `findRoot`
(gedcom_edit.js), which walks `parent` pointers — on a chain of more than
100 records with numeric level -1 it returns the `"ERROR"` sentinel, and on
the parsed root (string level `"-1"`) it returns its argument at once.  The
paternal `FAMC`→`HUSB` walk `findParentOfParent` (gedcom.js) carries no step
bound at all: on the cyclic chain of `cyclicLines` it is still running after
every finite number of self-calls. -/
theorem C2_amended :
    (∀ fuel, findParentOfParentF cyclicIdx fuel cyclicStart = PoPRes.spin) ∧
    findRoot numNeg1Row (List.replicate 150 numNeg1Row) =
      FindRootRes.errSentinel ∧
    findRoot (parse (some cyclicLines)) [] =
      FindRootRes.ok (parse (some cyclicLines)) :=
  ⟨fpp_cyclic_spin, rfl, rfl⟩

/-- The input showing that row monotonicity fails: `@I2@` is the wife of
`@F1@` and simultaneously records `@F1@` as her parent family (`FAMC`); the
layout reaches `@F1@` first as a spouse family, so `@I2@` and `@F1@` end up
in the same row. -/
def c4Lines : List Str :=
  [ "0 @I1@ INDI".toList, "1 FAMS @F1@".toList
  , "0 @I2@ INDI".toList, "1 FAMC @F1@".toList
  , "0 @F1@ FAM".toList, "1 HUSB @I1@".toList, "1 WIFE @I2@".toList ]

def c4Display : Except Str LayoutState := display 50 (some c4Lines)

/-- The parsed `@I2@` record of `c4Lines`. -/
def c4I2 : Option FamilyRow :=
  mapGet (updateMapsForDisplay (parse (some c4Lines))).indviduals
    (some "@I2@".toList)

/-- Claim C4, counterexample: after the layout run on `c4Lines` completes
and rows are normalized, the placed individual `@I2@` has a `FAMC` entry
resolving to the placed family `@F1@`, yet both sit in row 0 — the parent
family's row is not one less than the individual's. -/
theorem C4_counterexample :
    (c4I2.map (fun r => getIdFromNode r "FAMC".toList)) =
      some (some "@F1@".toList) ∧
    rowOfRes c4Display (false, some "@I2@".toList) = some 0 ∧
    rowOfRes c4Display (true, some "@F1@".toList) = some 0 ∧
    (0 : Int) ≠ 0 - 1 :=
  ⟨rfl, rfl, rfl, by decide⟩

/-- `List.find?` over a pointwise update that rewrites every entry with the
given key. -/
theorem findMapUpd (k : Option Str) (v : Int) :
    ∀ tbl : List (Option Str × Int), tbl.any (fun p => p.1 == k) = true →
      (((tbl.map fun p => if p.1 == k then (p.1, v) else p).find?
          (fun p => p.1 == k)).map (fun p => p.2)) = some v := by
  intro tbl
  induction tbl with
  | nil => intro h; simp at h
  | cons p rest ih =>
    intro h
    by_cases hp : (p.1 == k) = true
    · simp [List.find?, hp]
    · have hp' : (p.1 == k) = false := Bool.eq_false_iff.mpr hp
      have hr : rest.any (fun p => p.1 == k) = true := by
        simpa [List.any_cons, hp'] using h
      simpa [List.find?, hp'] using ih hr

/-- `List.find?` over a list that misses the key, extended by a fresh
entry. -/
theorem findAppendNew (k : Option Str) (v : Int) :
    ∀ tbl : List (Option Str × Int), tbl.any (fun p => p.1 == k) = false →
      (((tbl ++ [(k, v)]).find? (fun p => p.1 == k)).map (fun p => p.2)) =
        some v := by
  intro tbl
  induction tbl with
  | nil => simp [List.find?]
  | cons p rest ih =>
    intro h
    have hp' : (p.1 == k) = false := by
      cases hh : (p.1 == k) with
      | true => simp [List.any_cons, hh] at h
      | false => rfl
    have hr : rest.any (fun p => p.1 == k) = false := by
      simpa [List.any_cons, hp'] using h
    simpa [List.find?, hp'] using ih hr

/-- The row-level table update of `setRowLevel` stores the given value under
the given key. -/
theorem findUpd (tbl : List (Option Str × Int)) (k : Option Str) (v : Int) :
    (((if tbl.any (fun p => p.1 == k) then
          tbl.map (fun p => if p.1 == k then (p.1, v) else p)
        else tbl ++ [(k, v)]).find? (fun p => p.1 == k)).map
      (fun p => p.2)).getD (-1) = v := by
  by_cases h : tbl.any (fun p => p.1 == k) = true
  · simp only [h, if_true]
    rw [findMapUpd k v tbl h]
    rfl
  · have h' : tbl.any (fun p => p.1 == k) = false := Bool.eq_false_iff.mpr h
    simp only [h', Bool.false_eq_true, if_false]
    rw [findAppendNew k v tbl h']
    rfl

/-- `setRowLevel` followed by `getRowLevel` at the same key and table
returns the assigned value. -/
theorem getRow_set_same (st : LayoutState) (isFam : Bool) (k : Option Str)
    (v : Int) : getRowLevel (setRowLevel st isFam k v) isFam k = v := by
  cases isFam
  · simpa [setRowLevel, getRowLevel] using findUpd st.rowI k v
  · simpa [setRowLevel, getRowLevel] using findUpd st.rowF k v

/-- Claim C4, amended: the row offset holds at enqueue time — whenever the
layout expands an individual's `FAMC` reference and the referenced family
resolves in the index and is not yet visited, that family's `rowLevel` is
set to exactly one less than the individual's row.  (A family that is
already visited keeps its earlier row, so the global post-normalization
property can fail, as the counterexample shows; on Scenario A it holds.) -/
theorem C4_amended (idx : GraphIndex) (st : LayoutState) (x f : FamilyRow)
    (lvl : Int) (hres : mapGet idx.families x.id = some f)
    (hvis : isVisited st true x.id = false) :
    getRowLevel
      (addElementsToQueue (some (Entry.many [x])) (lvl - 1) true idx st)
      true x.id = lvl - 1 := by
  have hq : ∀ (s : LayoutState) (q : List QE),
      getRowLevel { s with queue := q } true x.id =
        getRowLevel s true x.id := by
    intro s q
    rfl
  simp only [addElementsToQueue, List.foldl, if_true, hres, hvis,
    Bool.false_eq_true, if_false, jsSortStable, insStable, List.map]
  rw [hq]
  exact getRow_set_same st true x.id (lvl - 1)

/-- Claim C4, amended, witness: the step fact at a concrete index, state and
reference. -/
theorem C4_amended_witness :
    getRowLevel
      (addElementsToQueue
        (some (Entry.many [mkFamilyRow (.str "1".toList) (some "@F1@".toList)
          (some "FAMC".toList) none]))
        (5 - 1) true (updateMapsForDisplay (parse (some scenarioALines)))
        LayoutState.empty)
      true (some "@F1@".toList) = 5 - 1 := by
  apply C4_amended
  · rfl
  · rfl


/-- A graph whose individual `@I2@` carries a dangling `FAMC` reference
`@FX@` off the anchor path. -/
def c7SilentLines : List Str :=
  [ "0 @I1@ INDI".toList, "1 FAMS @F1@".toList
  , "0 @I2@ INDI".toList, "1 FAMS @F1@".toList, "1 FAMC @FX@".toList
  , "0 @F1@ FAM".toList, "1 HUSB @I1@".toList, "1 WIFE @I2@".toList ]

def c7SilentDisplay : Except Str LayoutState := display 50 (some c7SilentLines)

/-- The parsed `@I2@` record of `c7SilentLines`. -/
def c7I2 : Option FamilyRow :=
  mapGet (updateMapsForDisplay (parse (some c7SilentLines))).indviduals
    (some "@I2@".toList)

/-- Claim C7, counterexample: in `c7SilentLines` the id `@FX@` referenced by
`@I2@`'s `FAMC` does not resolve in the index, yet the layout completes,
places every node, and raises no alert at all — the dangling reference is
dropped silently instead of being surfaced as a reportable error. -/
theorem C7_counterexample :
    (c7I2.map (fun r => getIdFromNode r "FAMC".toList)) =
      some (some "@FX@".toList) ∧
    mapGet (updateMapsForDisplay (parse (some c7SilentLines))).families
      (some "@FX@".toList) = none ∧
    (c7SilentDisplay.map (fun st => st.alerts)) = Except.ok [] ∧
    rowOfRes c7SilentDisplay (false, some "@I2@".toList) = some 0 :=
  ⟨rfl, rfl, rfl, rfl⟩

/-- An individual whose only `FAMS` reference is dangling. -/
def c7FamsLines : List Str :=
  [ "0 @I1@ INDI".toList, "1 FAMS @FX@".toList ]

/-- A family whose `HUSB` reference is dangling. -/
def c7HusbLines : List Str :=
  [ "0 @I1@ INDI".toList, "1 FAMS @F1@".toList
  , "0 @F1@ FAM".toList, "1 HUSB @IX@".toList, "1 WIFE @I1@".toList ]

/-- Claim C7, amended: the behaviour on a dangling reference depends on the
tag.  A dangling `FAMS` id met while placing an individual raises the alert
naming the missing id and the run continues to completion; a dangling
`HUSB`/`WIFE` id met in `getVisitedElement` throws a `TypeError`, aborting
the whole layout; dangling `FAMC`/`CHIL` ids during frontier expansion are
skipped silently (counterexample). -/
theorem C7_amended :
    (display 50 (some c7FamsLines)).map (fun st => st.alerts) =
      Except.ok [noFamilyMsg (some "@FX@".toList)] ∧
    rowOfRes (display 50 (some c7FamsLines)) (false, some "@I1@".toList) =
      some 0 ∧
    display 50 (some c7HusbLines) =
      Except.error "TypeError: cannot read visited of undefined".toList :=
  ⟨rfl, rfl, rfl⟩

/-- The number of `INDI` records of the root and the list of their ids. -/
def indiIds (top : FamilyRow) : List (Option Str) :=
  (entryListOf (top.child "INDI".toList)).map FamilyRow.id

def famIds (top : FamilyRow) : List (Option Str) :=
  (entryListOf (top.child "FAM".toList)).map FamilyRow.id

/-- Claim C9: `parse` invoked with no input lines (a missing or empty
sequence) synthesizes the built-in default starter tree: three persons
`@I1@`/`@I2@`/`@I3@` (self plus two parents) linked by the single family
`@F1@`, whose `HUSB` is `@I2@`, `WIFE` is `@I3@` and `CHIL` is `@I1@`, and
each person is linked back to `@F1@` (`FAMC` for the self, `FAMS` for the
parents) — so the application always has a valid graph to display. -/
theorem C9_default_tree :
    indiIds (parse none) =
      [some "@I1@".toList, some "@I2@".toList, some "@I3@".toList] ∧
    famIds (parse none) = [some "@F1@".toList] ∧
    ((mapGet (updateMapsForDisplay (parse none)).families
        (some "@F1@".toList)).map (fun f =>
      (getIdFromNode f "HUSB".toList, getIdFromNode f "WIFE".toList,
        getIdFromNode f "CHIL".toList))) =
      some (some "@I2@".toList, some "@I3@".toList, some "@I1@".toList) ∧
    ((mapGet (updateMapsForDisplay (parse none)).indviduals
        (some "@I1@".toList)).map (fun r =>
      getIdFromNode r "FAMC".toList)) = some (some "@F1@".toList) ∧
    ((mapGet (updateMapsForDisplay (parse none)).indviduals
        (some "@I2@".toList)).map (fun r =>
      getIdFromNode r "FAMS".toList)) = some (some "@F1@".toList) ∧
    ((mapGet (updateMapsForDisplay (parse none)).indviduals
        (some "@I3@".toList)).map (fun r =>
      getIdFromNode r "FAMS".toList)) = some (some "@F1@".toList) ∧
    parse (some []) = parse none :=
  ⟨rfl, rfl, rfl, rfl, rfl, rfl, rfl⟩

/-- Claim C10, counterexample: on the line `1 @X@ TAG @y@` the second token
`@X@` starts with `@` and becomes the id, but the value `@y@` still matches
the id-marker pattern and OVERWRITES it — the claimed precedence ("otherwise")
would leave the id `@X@` with value `@y@`, while `formatLine` produces id
`@y@` and no value. -/
theorem C10_counterexample :
    (formatLine "1 @X@ TAG @y@".toList).id = some "@y@".toList ∧
    (formatLine "1 @X@ TAG @y@".toList).value = none ∧
    some "@y@".toList ≠ some "@X@".toList :=
  ⟨rfl, rfl, by decide⟩

/-- Claim C10, amended: the value-reinterpretation rule is applied whether
or not an `@`-initial second token already provided an id: whenever the
whitespace-joined remaining tokens contain the `@...@` pattern they become
the id (overwriting any token id) and the value stays absent; only when they
do not match does a token id survive together with the value. -/
theorem C10_amended (lvl idTok tag1 : Str) (rest : List Str)
    (hAt : startsWithAt idTok = true) (hne : rest ≠ []) :
    (hasIdPat (joinSpace rest) = true →
      formatTokens (lvl :: idTok :: tag1 :: rest) =
        mkFamilyRow (.str lvl) (some (joinSpace rest)) (some tag1) none) ∧
    (hasIdPat (joinSpace rest) = false →
      formatTokens (lvl :: idTok :: tag1 :: rest) =
        mkFamilyRow (.str lvl) (some idTok) (some tag1)
          (some (joinSpace rest))) := by
  have hlen : rest.length > 0 := List.length_pos.mpr hne
  constructor
  · intro hpat
    simp [formatTokens, hAt, finishTag, hlen, hpat]
  · intro hpat
    simp [formatTokens, hAt, finishTag, hlen, hpat]

/-- Claim C10, amended, witness: the two branches at concrete lines. -/
theorem C10_amended_witness :
    formatTokens ("1".toList :: "@X@".toList :: "TAG".toList ::
        ["@y@".toList]) =
      mkFamilyRow (.str "1".toList) (some "@y@".toList)
        (some "TAG".toList) none ∧
    formatTokens ("1".toList :: "@X@".toList :: "TAG".toList ::
        ["hello".toList]) =
      mkFamilyRow (.str "1".toList) (some "@X@".toList)
        (some "TAG".toList) (some "hello".toList) := by
  constructor
  · exact (C10_amended "1".toList "@X@".toList "TAG".toList ["@y@".toList]
      (by decide) (by decide)).1 (by decide)
  · exact (C10_amended "1".toList "@X@".toList "TAG".toList ["hello".toList]
      (by decide) (by decide)).2 (by decide)

/-- The mutable root state seen by the edit operations: the root's `INDI`
and `FAM` properties plus the insertion-ordered key sets of the
`indviduals`/`families` maps.  The map values alias the records stored in
the property arrays, so resolution goes through the keys into the arrays. -/
structure RootState where
  INDI : Option Entry
  FAM : Option Entry
  indKeys : List (Option Str)
  famKeys : List (Option Str)

/-- Root state of a freshly parsed tree after `updateMapsForDisplay`. -/
def mkRootState (top : FamilyRow) : RootState :=
  { INDI := top.child "INDI".toList
  , FAM := top.child "FAM".toList
  , indKeys := (updateMapsForDisplay top).indviduals.map (fun p => p.1)
  , famKeys := (updateMapsForDisplay top).families.map (fun p => p.1) }

/-- `indviduals.get(id)` in a root state (a key present in the map resolves
to the array record carrying that id). -/
def indResolve (rs : RootState) (k : Option Str) : Option FamilyRow :=
  if rs.indKeys.contains k then
    (entryListOf rs.INDI).find? (fun r => r.id == k)
  else none

/-- `families.get(id)` in a root state. -/
def famResolve (rs : RootState) (k : Option Str) : Option FamilyRow :=
  if rs.famKeys.contains k then
    (entryListOf rs.FAM).find? (fun r => r.id == k)
  else none

/-- `Map.prototype.delete` on a key list. -/
def eraseKey : List (Option Str) → Option Str → List (Option Str)
  | [], _ => []
  | k0 :: rest, k => if k0 == k then rest else k0 :: eraseKey rest k

/-- `deleteIDFromArray`: splice out the first record with the id; the
Boolean reports whether something was removed (the source tests the length
of the spliced-out array). -/
def deleteIDFromArray (xs : List FamilyRow) (id : Option Str) :
    Bool × List FamilyRow :=
  match xs.findIdx? (fun e => e.id == id) with
  | some i => (true, xs.take i ++ xs.drop (i + 1))
  | none => (false, xs)

/-- Property assignment `r[key] = e`: replace in place, or append a new
key. -/
def setChildEntry (r : FamilyRow) (key : Str) (e : Entry) : FamilyRow :=
  if r.children.any (fun p => p.1 == key) then
    r.setChildren (r.children.map
      (fun p => if p.1 == key then (p.1, e) else p))
  else r.setChildren (r.children ++ [(key, e)])

/-- `delete r[key]`. -/
def removeChildKey (r : FamilyRow) (key : Str) : FamilyRow :=
  r.setChildren (r.children.filter (fun p => !(p.1 == key)))

/-- One `CHIL`/`HUSB`/`WIFE` (or `FAMC`/`FAMS`) block of
`clearFromFam`/`clearFromIndi`: splice the id out of an array-valued
property, or delete a single-record property whose record carries the id.
The Boolean is the `updated` flag contribution. -/
def famRemoveRef (r : FamilyRow) (key : Str) (id : Option Str) :
    FamilyRow × Bool :=
  match r.child key with
  | some (.many xs) =>
    let (removed, xs') := deleteIDFromArray xs id
    if removed then (setChildEntry r key (.many xs'), true) else (r, false)
  | some (.one c) =>
    if c.id == id then (removeChildKey r key, true) else (r, false)
  | none => (r, false)

/-- `isEmptyFamily`: no `CHIL`, `HUSB` or `WIFE` member.  (The length guard
means a single non-array member also counts as empty.) -/
def isEmptyFamily (f : FamilyRow) : Bool :=
  let nonEmpty := fun (e : Option Entry) =>
    match e with
    | some (.many xs) => xs.length > 0
    | _ => false
  !(nonEmpty (f.child "CHIL".toList)) &&
  !(nonEmpty (f.child "HUSB".toList)) &&
  !(nonEmpty (f.child "WIFE".toList))

/-- `clearFromIndi`: for every individual, remove the family id from its
`FAMC` and `FAMS`; individuals are never cascaded (the `isOrphan` call is
commented out in the source).  A missing or single-record `INDI` property
makes `forEach` throw. -/
def clearFromIndi (id : Option Str) (rs : RootState) :
    Option Str × RootState :=
  match rs.INDI with
  | some (.many arr) =>
    (none, { rs with INDI := some (.many (arr.map (fun r =>
      let (r1, _) := famRemoveRef r "FAMC".toList id
      let (r2, _) := famRemoveRef r1 "FAMS".toList id
      r2))) })
  | some (.one _) =>
    (some "TypeError: rootFamilyRow.INDI.forEach is not a function".toList,
      rs)
  | none =>
    (some "TypeError: undefined has no properties (INDI.forEach)".toList, rs)

/-- `deleteFam`: drop the family from the map and from the root's `FAM`
array, then unlink its id from every individual. -/
def deleteFam (famId : Option Str) (rs : RootState) :
    Option Str × RootState :=
  let rs1 := { rs with famKeys := eraseKey rs.famKeys famId }
  match rs1.FAM with
  | some (.many arr) =>
    clearFromIndi famId
      { rs1 with FAM := some (.many (deleteIDFromArray arr famId).2) }
  | some (.one _) =>
    (some "TypeError: rootFamilyRow.FAM.findIndex is not a function".toList,
      rs1)
  | none =>
    (some "TypeError: undefined has no properties (FAM)".toList, rs1)

/-- The body of `clearFromFam`'s `forEach`: JS fixes the length up front and
re-reads the live array each step, so an index beyond a shrunk array is
skipped.  `k` is the current index, `rem` the remaining iterations of the
original length. -/
def clearFromFamGo (id : Option Str) :
    Nat → Nat → RootState → Option Str × RootState
  | _, 0, rs => (none, rs)
  | k, rem + 1, rs =>
    match rs.FAM with
    | some (.many arr) =>
      if h : k < arr.length then
        let f := arr.get ⟨k, h⟩
        let (f1, u1) := famRemoveRef f "CHIL".toList id
        let (f2, u2) := famRemoveRef f1 "HUSB".toList id
        let (f3, u3) := famRemoveRef f2 "WIFE".toList id
        let rs' := { rs with FAM := some (.many (arr.set k f3)) }
        if (u1 || u2 || u3) && isEmptyFamily f3 then
          match deleteFam f3.id rs' with
          | (some e, rs2) => (some e, rs2)
          | (none, rs2) => clearFromFamGo id (k + 1) rem rs2
        else clearFromFamGo id (k + 1) rem rs'
      else clearFromFamGo id (k + 1) rem rs
    | _ => (none, rs)

/-- `clearFromFam`: iterate `rootFamilyRow.FAM.forEach`, removing the
deleted individual's id from every family's `CHIL`/`HUSB`/`WIFE` and
cascading to `deleteFam` when a family is left empty.  A missing or
single-record `FAM` property makes `forEach` throw — which is exactly what
happens on a tree parsed with a single `0 ... FAM` line. -/
def clearFromFam (id : Option Str) (rs : RootState) :
    Option Str × RootState :=
  match rs.FAM with
  | some (.many arr) => clearFromFamGo id 0 arr.length rs
  | some (.one _) =>
    (some "TypeError: rootFamilyRow.FAM.forEach is not a function".toList,
      rs)
  | none =>
    (some "TypeError: undefined has no properties (FAM.forEach)".toList, rs)

/-- `deleteIndi`: drop the individual from the map and from the root's
`INDI` array, then clear it out of every family.  A missing or
single-record `INDI` property makes `findIndex` throw. -/
def deleteIndi (indiId : Option Str) (rs : RootState) :
    Option Str × RootState :=
  let rs1 := { rs with indKeys := eraseKey rs.indKeys indiId }
  match rs1.INDI with
  | some (.many arr) =>
    clearFromFam indiId
      { rs1 with INDI := some (.many (deleteIDFromArray arr indiId).2) }
  | some (.one _) =>
    (some
      "TypeError: rootFamilyRow.INDI.findIndex is not a function".toList,
      rs1)
  | none =>
    (some "TypeError: undefined has no properties (INDI)".toList, rs1)

/-- `formatGedcomName`: trim and collapse internal whitespace runs to single
spaces. -/
def collapseWs (s : Str) : Str :=
  s.foldr (fun c acc =>
    if jsWs c then
      match acc with
      | ' ' :: _ => acc
      | _ => ' ' :: acc
    else c :: acc) []

def formatGedcomName (s : Str) : Str := collapseWs (jsTrim s)

/-- `getIndividualId(n)`. -/
def getIndividualId (n : Nat) : Str :=
  '@' :: 'I' :: (toString n).toList ++ ['@']

/-- `getFamilyId(n)`. -/
def getFamilyId (n : Nat) : Str :=
  '@' :: 'F' :: (toString n).toList ++ ['@']

/-- The id-probing loop of `nextIndividualID`/`nextFamilyID`: starting at
`size + 1`, increment until an unused id is found.  Among `size + 1`
consecutive candidates at most `size` can be taken, so the probe window of
that length always contains the loop's answer (the smallest free candidate);
the fallback value is unreachable. -/
def probeId (keys : List (Option Str)) (mk : Nat → Str) : Str :=
  let start := keys.length + 1
  let found := (List.range (keys.length + 1)).findSome? (fun i =>
    if keys.contains (some (mk (start + i))) then none else some (start + i))
  mk (found.getD (start + keys.length + 1))

def nextIndividualID (rs : RootState) : Str := probeId rs.indKeys getIndividualId

def nextFamilyID (rs : RootState) : Str := probeId rs.famKeys getFamilyId

/-- `indviduals.set` / `families.set` key bookkeeping. -/
def setKey (keys : List (Option Str)) (k : Option Str) : List (Option Str) :=
  if keys.contains k then keys else keys ++ [k]

/-- `addIndiToRoot`: push onto the root's `INDI` (wrapping a single record
into an array first) and register the map key. -/
def addIndiToRoot (rs : RootState) (node : FamilyRow) : RootState :=
  let e := match rs.INDI with
    | none => Entry.many [node]
    | some (.one x) => Entry.many [x, node]
    | some (.many xs) => Entry.many (xs ++ [node])
  { rs with INDI := some e, indKeys := setKey rs.indKeys node.id }

/-- `addFamToRoot`. -/
def addFamToRoot (rs : RootState) (node : FamilyRow) : RootState :=
  let e := match rs.FAM with
    | none => Entry.many [node]
    | some (.one x) => Entry.many [x, node]
    | some (.many xs) => Entry.many (xs ++ [node])
  { rs with FAM := some e, famKeys := setKey rs.famKeys node.id }

/-- A relationship reference record such as
`new FamilyRow(1, familyRow.id, "FAMS", undefined)`. -/
def mkRef (id : Option Str) (tag : Str) : FamilyRow :=
  mkFamilyRow (.num 1) id (some tag) none

/-- Apply an in-place mutation to the individual object with the given id
(JS mutates through the alias; ids are unique in every state considered
here). -/
def updIndi (rs : RootState) (k : Option Str) (f : FamilyRow → FamilyRow) :
    RootState :=
  { rs with INDI := match rs.INDI with
    | some (.many xs) =>
      some (.many (xs.map (fun r => if r.id == k then f r else r)))
    | some (.one r) => some (.one (if r.id == k then f r else r))
    | none => none }

def updFam (rs : RootState) (k : Option Str) (f : FamilyRow → FamilyRow) :
    RootState :=
  { rs with FAM := match rs.FAM with
    | some (.many xs) =>
      some (.many (xs.map (fun r => if r.id == k then f r else r)))
    | some (.one r) => some (.one (if r.id == k then f r else r))
    | none => none }

/-- `createNewNode`: a fresh level-0 `INDI` record with the next free id,
a `NAME` child from the form input, and a `SEX` child when a gender is
given, registered through `addIndiToRoot`. -/
def createNewNode (rs : RootState) (name : Str) (gender : Option Str) :
    FamilyRow × RootState :=
  let nid := nextIndividualID rs
  let ch :=
    [("NAME".toList,
      Entry.one (mkFamilyRow (.num 1) none (some "NAME".toList)
        (some (formatGedcomName name))))]
  let ch := match gender with
    | some g => ch ++
        [("SEX".toList,
          Entry.one (mkFamilyRow (.num 1) none (some "SEX".toList)
            (some g)))]
    | none => ch
  let node := FamilyRow.mk (.num 0) (some nid) (some "INDI".toList) none ch
  (node, addIndiToRoot rs node)

/-- `familyRow.HUSB.push(ref)` with the source's create-or-push guard
(`if (familyRow.HUSB && familyRow.HUSB.length > 0) push else = [ref]`). -/
def pushRefEntry (key : Str) (id : Option Str) (f : FamilyRow) : FamilyRow :=
  match f.child key with
  | some (.many xs) =>
    if xs.length > 0 then setChildEntry f key (.many (xs ++ [mkRef id key]))
    else setChildEntry f key (.many [mkRef id key])
  | _ => setChildEntry f key (.many [mkRef id key])

/-- `addPartner` (the `addSpouse` operation), fused with
`createOrGetFamilyOfPartner`.  The selected individual is identified by its
id; `name`/`gender` stand for the form inputs read by `createNewNode`. -/
def addPartner (curId : Option Str) (name : Str) (gender : Option Str)
    (rs : RootState) : Option Str × RootState :=
  match indResolve rs curId with
  | none => (some "unreachable: the selection is a map value".toList, rs)
  | some cur =>
    let hasFams : Bool := match cur.child "FAMS".toList with
      | some (.many xs) => xs.length > 0
      | _ => false
    let step1 : Except Str (Option Str × RootState) :=
      if hasFams then
        let fid := match cur.child "FAMS".toList with
          | some (.many (x :: _)) => x.id
          | _ => none
        match famResolve rs fid with
        | some f => .ok (f.id, rs)
        | none => .error "TypeError: familyRow is null".toList
      else
        let fid := some (nextFamilyID rs)
        let fam0 := mkFamilyRow (.num 0) fid (some "FAM".toList) none
        let rs := addFamToRoot rs fam0
        let isM := match cur.child "SEX".toList with
          | some (.one sx) => sx.value == some "M".toList
          | _ => false
        let rs := updIndi rs curId (fun r =>
          setChildEntry r "FAMS".toList (.many [mkRef fid "FAMS".toList]))
        let rs := updFam rs fid (fun f =>
          setChildEntry f (if isM then "HUSB".toList else "WIFE".toList)
            (.many [mkRef curId (if isM then "HUSB".toList
              else "WIFE".toList)]))
        .ok (fid, rs)
    match step1 with
    | .error m => (some m, rs)
    | .ok (fid, rs) =>
      let (partner, rs) := createNewNode rs name gender
      let rs := updIndi rs partner.id (fun r =>
        setChildEntry r "FAMS".toList (.many [mkRef fid "FAMS".toList]))
      match gender with
      | none =>
        (some "TypeError: cannot read value of undefined (SEX)".toList, rs)
      | some g =>
        let key := if g == "M".toList then "HUSB".toList else "WIFE".toList
        (none, updFam rs fid (pushRefEntry key partner.id))

/-- Scenario C: delete the father `@I2@` from the freshly parsed Scenario A
tree (whose single family is stored as a single record, not an array). -/
def scenarioCDelete : Option Str × RootState :=
  deleteIndi (some "@I2@".toList) (mkRootState (parse (some scenarioALines)))

/-- Claim C3: deleting `@I2@` from Scenario A's tree does NOT run to
completion — after removing `@I2@` from the individuals map and the `INDI`
array, `clearFromFam` evaluates `rootFamilyRow.FAM.forEach` on the single
(non-array) family record and throws, so `@F1@` is never touched: it keeps
referencing the deleted `@I2@` as its `HUSB` (and is, of course, not
deleted).  The claimed invariant "afterwards no remaining family references
the deleted id" fails on the claim's own Scenario C. -/
theorem C3_scenarioC_throws :
    scenarioCDelete.1 =
      some "TypeError: rootFamilyRow.FAM.forEach is not a function".toList ∧
    scenarioCDelete.2.indKeys.contains (some "@I2@".toList) = false ∧
    (entryListOf scenarioCDelete.2.INDI).map FamilyRow.id =
      [some "@I1@".toList, some "@I3@".toList] ∧
    (entryListOf scenarioCDelete.2.FAM).map
      (fun f => getIdFromNode f "HUSB".toList) = [some "@I2@".toList] :=
  ⟨rfl, rfl, rfl, rfl⟩

/-- A well-formed tree with a single `INDI` record. -/
def c8Lines : List Str := ["0 @I1@ INDI".toList, "1 NAME You".toList]

def c8Delete : Option Str × RootState :=
  deleteIndi (some "@I1@".toList) (mkRootState (parse (some c8Lines)))

/-- Claim C8: deleting the only individual of a tree parsed from well-formed
lines throws — `parseLine` stores a lone `INDI` as a single record, and
`deleteIndi`'s `deleteIDFromArray(rootFamilyRow.INDI, ...)` calls
`findIndex` on it.  So mutation operations do throw, and how many `INDI`
(or `FAM`) records the root contains is exactly what decides it. -/
theorem C8_singleIndi_throws :
    indiIds (parse (some c8Lines)) = [some "@I1@".toList] ∧
    c8Delete.1 =
      some
        "TypeError: rootFamilyRow.INDI.findIndex is not a function".toList :=
  ⟨rfl, rfl⟩

/-- Scenario B's base: one individual `@I1@` with `SEX M` and no `FAMS`. -/
def scenarioBState : RootState :=
  mkRootState (parse (some
    ["0 @I1@ INDI".toList, "1 NAME You".toList, "1 SEX M".toList]))

def c6M : Option Str × RootState :=
  addPartner (some "@I1@".toList) "Partner".toList (some "M".toList)
    scenarioBState

def c6F : Option Str × RootState :=
  addPartner (some "@I1@".toList) "Partner".toList (some "F".toList)
    scenarioBState

/-- The `HUSB` and `WIFE` member ids of a family in a root state. -/
def famSlots (rs : RootState) (fid : Option Str) :
    Option (List (Option Str) × List (Option Str)) :=
  (famResolve rs fid).map (fun f =>
    ((entryListOf (f.child "HUSB".toList)).map FamilyRow.id,
     (entryListOf (f.child "WIFE".toList)).map FamilyRow.id))

/-- The `FAMS` reference ids of an individual in a root state. -/
def famsOf (rs : RootState) (iid : Option Str) :
    Option (List (Option Str)) :=
  (indResolve rs iid).map (fun r =>
    (entryListOf (r.child "FAMS".toList)).map FamilyRow.id)

/-- Claim C6, counterexample: `addPartner` on `@I1@` (SEX `M`, no `FAMS`)
with the form gender `M` places the newly created partner `@I2@` in `HUSB`
— the SAME slot as the selected individual, not the opposite one, and
`WIFE` stays empty.  The slot is chosen from the partner's own selected
gender, not from the selected individual's SEX. -/
theorem C6_counterexample :
    ((indResolve scenarioBState (some "@I1@".toList)).map (fun r =>
      match r.child "SEX".toList with
      | some (.one sx) => sx.value
      | _ => none)) = some (some "M".toList) ∧
    c6M.1 = none ∧
    famSlots c6M.2 (some "@F1@".toList) =
      some ([some "@I1@".toList, some "@I2@".toList], []) :=
  ⟨rfl, rfl, rfl⟩

/-- Claim C6, amended: `addPartner` on an individual with no existing
`FAMS` does create a new family (`@F1@`, registered in the family map), does
set both the individual's and the new partner's `FAMS` to it, and places the
selected individual by its own SEX — but the new partner is placed in the
`HUSB`/`WIFE` slot matching the partner's own selected gender (`HUSB` for
`M`, `WIFE` otherwise), which is the opposite slot only when the chosen
gender differs from the selected individual's. -/
theorem C6_amended :
    (c6F.1 = none ∧
     c6F.2.famKeys = [some "@F1@".toList] ∧
     famsOf c6F.2 (some "@I1@".toList) = some [some "@F1@".toList] ∧
     famsOf c6F.2 (some "@I2@".toList) = some [some "@F1@".toList] ∧
     famSlots c6F.2 (some "@F1@".toList) =
       some ([some "@I1@".toList], [some "@I2@".toList])) ∧
    (c6M.1 = none ∧
     c6M.2.famKeys = [some "@F1@".toList] ∧
     famsOf c6M.2 (some "@I2@".toList) = some [some "@F1@".toList] ∧
     famSlots c6M.2 (some "@F1@".toList) =
       some ([some "@I1@".toList, some "@I2@".toList], [])) :=
  ⟨⟨rfl, rfl, rfl, rfl, rfl⟩, ⟨rfl, rfl, rfl, rfl⟩⟩

/-- `split(' ')` never returns the empty list. -/
theorem jsSplitSpace_ne_nil : ∀ s : Str, jsSplitSpace s ≠ []
  | [] => by simp [jsSplitSpace]
  | c :: rest => by
    have h := jsSplitSpace_ne_nil rest
    simp only [jsSplitSpace]
    by_cases hc : c = ' '
    · simp [hc]
    · simp only [hc, if_false]
      match hm : jsSplitSpace rest with
      | t :: ts => simp
      | [] => exact absurd hm h

/-- `join(' ')` is a left inverse of `split(' ')`. -/
theorem joinSplit : ∀ s : Str, joinSpace (jsSplitSpace s) = s
  | [] => by simp [jsSplitSpace, joinSpace]
  | c :: rest => by
    have ih := joinSplit rest
    simp only [jsSplitSpace]
    by_cases hc : c = ' '
    · subst hc
      simp only [if_true]
      match hm : jsSplitSpace rest with
      | [] => exact absurd hm (jsSplitSpace_ne_nil rest)
      | t :: ts =>
        rw [hm] at ih
        simp [joinSpace, ih]
    · simp only [hc, if_false]
      match hm : jsSplitSpace rest with
      | [] => exact absurd hm (jsSplitSpace_ne_nil rest)
      | t :: ts =>
        rw [hm] at ih
        cases ts with
        | nil => simp_all [joinSpace]
        | cons t2 ts2 => simp_all [joinSpace]

/-- Splitting a space-free segment followed by a space: the segment becomes
one token. -/
theorem splitSeg : ∀ (a b : Str), a.all (fun c => !(c = ' ')) = true →
    jsSplitSpace (a ++ ' ' :: b) = a :: jsSplitSpace b
  | [], b, _ => by simp [jsSplitSpace]
  | c :: a, b, h => by
    simp only [List.all_cons, Bool.and_eq_true] at h
    have hc : ¬(c = ' ') := by simpa using h.1
    have ih := splitSeg a b h.2
    simp [jsSplitSpace, hc, ih]

/-- Splitting a space-free nonempty string gives one token. -/
theorem splitNoSpace : ∀ a : Str, a.all (fun c => !(c = ' ')) = true →
    jsSplitSpace a = [a]
  | [], _ => by simp [jsSplitSpace]
  | c :: a, h => by
    simp only [List.all_cons, Bool.and_eq_true] at h
    have hc : ¬(c = ' ') := by simpa using h.1
    have ih := splitNoSpace a h.2
    simp [jsSplitSpace, hc, ih]

/-- `trim()` leaves a string whose first and last characters are not
whitespace unchanged. -/
theorem jsTrim_stable : ∀ s : Str,
    (match s.head? with | some c => !jsWs c | none => true) = true →
    (match s.getLast? with | some c => !jsWs c | none => true) = true →
    jsTrim s = s := by
  intro s hh hl
  unfold jsTrim
  have h1 : s.dropWhile jsWs = s := by
    cases s with
    | nil => rfl
    | cons c rest =>
      simp only [List.head?] at hh
      have hc : jsWs c = false := by simpa using hh
      simp [List.dropWhile, hc]
  rw [h1]
  have h2 : s.reverse.dropWhile jsWs = s.reverse := by
    cases hr : s.reverse with
    | nil => rfl
    | cons c rest =>
      have : s.getLast? = some c := by
        rw [← List.head?_reverse, hr]
        rfl
      rw [this] at hl
      have hc : jsWs c = false := by simpa using hl
      simp [List.dropWhile, hc]
  rw [h2, List.reverse_reverse]

/-- Whitespace-free and nonempty (a well-behaved single token). -/
def tokenOk (s : Str) : Bool :=
  !s.isEmpty && s.all (fun c => !jsWs c)

/-- A well-formed level field of a record at depth `d`: the raw string token
kept by `formatLine`, numerically equal to `d`. -/
def goodLevel (d : Int) : JsLevel → Bool
  | .str s => (jsToNumber s == some d) && tokenOk s
  | _ => false

/-- A well-formed tag: a nonempty whitespace-free token not starting with
`@` (so re-parsing does not mistake it for an id). -/
def goodTagB : Option Str → Bool
  | some t => tokenOk t && !startsWithAt t
  | none => false

/-- A well-formed value: absent, or nonempty, not ending in whitespace (so
the emitted line is trim-stable) and free of the id pattern (so re-parsing
does not steal it into the id). -/
def goodValueB : Option Str → Bool
  | none => true
  | some v =>
    !v.isEmpty &&
    (match v.getLast? with | some c => !jsWs c | none => false) &&
    !hasIdPat v

/-- Well-formed id/value combination at depth `d`: at level 0 the id is an
`@`-initial token (emitted before the tag); at other levels the id is
emitted after the tag where re-parsing recovers it through the id pattern,
which also forces the value to be absent. -/
def goodIdValue (d : Int) (i v : Option Str) : Bool :=
  match i with
  | none => goodValueB v
  | some s =>
    if d == 0 then startsWithAt s && s.all (fun c => !jsWs c) && goodValueB v
    else
      (v == none) && hasIdPat s &&
      (match s.getLast? with | some c => !jsWs c | none => false)

/-- Distinct child keys. -/
def keysNodupB : List (Str × Entry) → Bool
  | [] => true
  | (k, _) :: rest =>
    rest.all (fun p => !(p.1 == k)) && keysNodupB rest

mutual
/-- The structural invariant satisfied by every record that `parse`
produces from well-formed lines at depth `d`: well-formed scalar fields
and children stored exactly the way `parseLine` stores them (single
records only for non-relationship tags occurring once, arrays for
relationship tags or repeated tags). -/
def goodRow : Int → FamilyRow → Bool
    | d, .mk lv i t v ch =>
      goodLevel d lv && goodTagB t && goodIdValue d i v &&
      keysNodupB ch && goodChildrenB d ch
def goodChildrenB : Int → List (Str × Entry) → Bool
    | _, [] => true
    | d, (k, e) :: rest => goodEntryB d k e && goodChildrenB d rest
def goodEntryB : Int → Str → Entry → Bool
    | d, k, .one m =>
      !(relTags.contains k) && (m.tag == some k) && goodRow (d + 1) m
    | d, k, .many xs =>
      !xs.isEmpty && (relTags.contains k || decide (2 ≤ xs.length)) &&
      goodManyB d k xs
def goodManyB : Int → Str → List FamilyRow → Bool
    | _, _, [] => true
    | d, k, m :: ms =>
      (m.tag == some k) && goodRow (d + 1) m && goodManyB d k ms
end

/-- The record as `formatLine` would freshly produce it (children
stripped). -/
def stripRow (r : FamilyRow) : FamilyRow :=
  .mk r.level r.id r.tag r.value []

mutual
/-- The sequence of line records that re-parsing the serialized output of
a record produces (one fresh record per emitted line, in emission
order). -/
def flattenRow : FamilyRow → List FamilyRow
    | .mk l i t v ch => .mk l i t v [] :: flattenChildren ch
def flattenChildren : List (Str × Entry) → List FamilyRow
    | [] => []
    | (_, e) :: rest => flattenEntry e ++ flattenChildren rest
def flattenEntry : Entry → List FamilyRow
    | .one m => flattenRow m
    | .many xs => flattenMany xs
def flattenMany : List FamilyRow → List FamilyRow
    | [] => []
    | m :: ms => flattenRow m ++ flattenMany ms
end

/-- Whitespace-free strings are in particular space-free. -/
theorem noWs_noSpace (s : Str) (h : s.all (fun c => !jsWs c) = true) :
    s.all (fun c => !(c = ' ')) = true := by
  rw [List.all_eq_true] at h ⊢
  intro c hc
  have h2 := h c hc
  simp only [jsWs, Bool.not_eq_true', Bool.or_eq_false_iff,
    decide_eq_false_iff_not] at h2
  simpa using h2.1.1.1

/-- The last element of a concatenation with a nonempty right part. -/
theorem getLast?_concat (a b : Str) (hb : b ≠ []) :
    (a ++ b).getLast? = b.getLast? := by
  induction a with
  | nil => rfl
  | cons c a ih =>
    rw [List.cons_append, List.getLast?_cons, ih]
    cases hbb : b with
    | nil => exact absurd hbb hb
    | cons x xs =>
      cases a with
      | nil => simp [List.getLast?_cons]
      | cons y ys => simp [List.getLast?_cons]

/-- Every line a well-formed record prints is trim-stable, nonempty, and
parses back (`formatLine`) to the same scalar fields. -/
theorem lineRoundTrip (d : Int) (lv : JsLevel) (i t v : Option Str)
    (ch : List (Str × Entry))
    (hlv : goodLevel d lv = true) (ht : goodTagB t = true)
    (hiv : goodIdValue d i v = true) :
    jsTrim (famToString (.mk lv i t v ch)) = famToString (.mk lv i t v ch) ∧
    (famToString (.mk lv i t v ch)).length > 0 ∧
    formatLine (famToString (.mk lv i t v ch)) =
      stripRow (.mk lv i t v ch) := by
  obtain ⟨s, rfl⟩ : ∃ s, lv = JsLevel.str s := by
    cases lv with
    | str s => exact ⟨s, rfl⟩
    | undef => simp [goodLevel] at hlv
    | num n => simp [goodLevel] at hlv
  obtain ⟨tg, rfl⟩ : ∃ tg, t = some tg := by
    cases t with
    | some tg => exact ⟨tg, rfl⟩
    | none => simp [goodTagB] at ht
  simp only [goodLevel, tokenOk, Bool.and_eq_true, beq_iff_eq,
    Bool.not_eq_true'] at hlv
  obtain ⟨hnum, hsne, hsws⟩ :
      jsToNumber s = some d ∧ s ≠ [] ∧ s.all (fun c => !jsWs c) = true := by
    exact ⟨hlv.1, by simpa using hlv.2.1, hlv.2.2⟩
  simp only [goodTagB, tokenOk, Bool.and_eq_true, Bool.not_eq_true'] at ht
  obtain ⟨htne, htws, htat⟩ :
      tg ≠ [] ∧ tg.all (fun c => !jsWs c) = true ∧
        startsWithAt tg = false := by
    exact ⟨by simpa using ht.1.1, ht.1.2, ht.2⟩
  obtain ⟨c0, s', rfl⟩ : ∃ c0 s', s = c0 :: s' := by
    cases s with
    | nil => exact absurd rfl hsne
    | cons c0 s' => exact ⟨c0, s', rfl⟩
  have hc0 : jsWs c0 = false := by
    have := (List.all_eq_true.mp hsws) c0 (by simp)
    simpa using this
  have hsp : (c0 :: s').all (fun c => !(c = ' ')) = true := noWs_noSpace _ hsws
  have htp : tg.all (fun c => !(c = ' ')) = true := noWs_noSpace _ htws
  have hlz : (JsLevel.str (c0 :: s')).looseEqZero = (d == 0) := by
    simp only [JsLevel.looseEqZero, JsLevel.toNum, hnum]
    cases hd : (d == 0)
    · have : d ≠ 0 := by simpa using hd
      simp [this]
    · have : d = 0 := by simpa using hd
      simp [this]
  -- helper facts for the trim part
  have trimOf : ∀ (rest : Str), (match rest.getLast? with
        | some c => !jsWs c | none => false) = true →
      jsTrim (c0 :: s' ++ ' ' :: rest) = c0 :: s' ++ ' ' :: rest := by
    intro rest hlast
    apply jsTrim_stable
    · simp [hc0]
    · have hrne : rest ≠ [] := by
        intro hr
        rw [hr] at hlast
        simp at hlast
      have : (c0 :: s' ++ ' ' :: rest).getLast? = rest.getLast? := by
        have := getLast?_concat (c0 :: s' ++ [' ']) rest hrne
        simpa using this
      rw [this]
      cases hg : rest.getLast? with
      | none => simp
      | some c =>
        rw [hg] at hlast
        simpa using hlast
  have tgLast : (match tg.getLast? with
      | some c => !jsWs c | none => false) = true := by
    cases hg : tg.getLast? with
    | none =>
      exact absurd (List.getLast?_eq_none_iff.mp hg) htne
    | some c =>
      have hmem : c ∈ tg := List.mem_of_mem_getLast? hg
      have := (List.all_eq_true.mp htws) c hmem
      simpa using this
  cases i with
  | none =>
    -- no id: the emitted line is `s tag` or `s tag value`
    simp only [goodIdValue] at hiv
    cases v with
    | none =>
      have e1 : famToString (.mk (.str (c0 :: s')) none (some tg) none ch) =
          c0 :: s' ++ ' ' :: tg := by
        simp [famToString, FamilyRow.level, FamilyRow.id, FamilyRow.tag,
          FamilyRow.value, JsLevel.render]
      rw [e1]
      refine ⟨trimOf tg tgLast, by simp, ?_⟩
      rw [formatLine]
      have hsplit : jsSplitSpace (c0 :: s' ++ ' ' :: tg) =
          (c0 :: s') :: [tg] := by
        rw [splitSeg _ _ hsp, splitNoSpace _ htp]
      rw [hsplit]
      simp [formatTokens, htat, finishTag, stripRow, FamilyRow.level,
        FamilyRow.id, FamilyRow.tag, FamilyRow.value, mkFamilyRow]
    | some vv =>
      simp only [goodValueB, Bool.and_eq_true, Bool.not_eq_true'] at hiv
      obtain ⟨hvne, hvlast, hvpat⟩ :
          vv ≠ [] ∧ (match vv.getLast? with
            | some c => !jsWs c | none => false) = true ∧
            hasIdPat vv = false := by
        exact ⟨by simpa using hiv.1.1, hiv.1.2, hiv.2⟩
      have e1 : famToString (.mk (.str (c0 :: s')) none (some tg)
          (some vv) ch) = c0 :: s' ++ ' ' :: (tg ++ ' ' :: vv) := by
        simp [famToString, FamilyRow.level, FamilyRow.id, FamilyRow.tag,
          FamilyRow.value, JsLevel.render]
      rw [e1]
      have tvLast : (match (tg ++ ' ' :: vv).getLast? with
          | some c => !jsWs c | none => false) = true := by
        have : (tg ++ ' ' :: vv).getLast? = vv.getLast? := by
          have := getLast?_concat (tg ++ [' ']) vv hvne
          simpa using this
        rw [this]
        exact hvlast
      refine ⟨trimOf _ tvLast, by simp, ?_⟩
      rw [formatLine]
      have hsplit : jsSplitSpace (c0 :: s' ++ ' ' :: (tg ++ ' ' :: vv)) =
          (c0 :: s') :: tg :: jsSplitSpace vv := by
        rw [splitSeg _ _ hsp, splitSeg _ _ htp]
      rw [hsplit]
      have hvjoin : joinSpace (jsSplitSpace vv) = vv := joinSplit vv
      have hvlen : 0 < (jsSplitSpace vv).length :=
        List.length_pos.mpr (jsSplitSpace_ne_nil vv)
      simp [formatTokens, htat, finishTag, hvlen, hvjoin, hvpat, stripRow,
        FamilyRow.level, FamilyRow.id, FamilyRow.tag, FamilyRow.value,
        mkFamilyRow]
  | some ii =>
    simp only [goodIdValue] at hiv
    by_cases hd0 : d = 0
    · -- level 0: the id is an @-token emitted between level and tag
      rw [if_pos (by simpa using hd0)] at hiv
      simp only [Bool.and_eq_true] at hiv
      have hiat := hiv.1.1
      have hiws := hiv.1.2
      have hgv := hiv.2
      have hip : ii.all (fun c => !(c = ' ')) = true := noWs_noSpace _ hiws
      have hlz0 : (JsLevel.str (c0 :: s')).looseEqZero = true := by
        rw [hlz]
        simpa using hd0
      cases v with
      | none =>
        have e1 : famToString (.mk (.str (c0 :: s')) (some ii) (some tg)
            none ch) = c0 :: s' ++ ' ' :: (ii ++ ' ' :: tg) := by
          simp [famToString, FamilyRow.level, FamilyRow.id, FamilyRow.tag,
            FamilyRow.value, JsLevel.render, hlz0]
        rw [e1]
        have itLast : (match (ii ++ ' ' :: tg).getLast? with
            | some c => !jsWs c | none => false) = true := by
          have : (ii ++ ' ' :: tg).getLast? = tg.getLast? := by
            have := getLast?_concat (ii ++ [' ']) tg htne
            simpa using this
          rw [this]
          exact tgLast
        refine ⟨trimOf _ itLast, by simp, ?_⟩
        rw [formatLine]
        have hsplit : jsSplitSpace (c0 :: s' ++ ' ' :: (ii ++ ' ' :: tg)) =
            (c0 :: s') :: ii :: [tg] := by
          rw [splitSeg _ _ hsp, splitSeg _ _ hip, splitNoSpace _ htp]
        rw [hsplit]
        simp [formatTokens, hiat, finishTag, stripRow, FamilyRow.level,
          FamilyRow.id, FamilyRow.tag, FamilyRow.value, mkFamilyRow]
      | some vv =>
        simp only [goodValueB, Bool.and_eq_true,
          Bool.not_eq_true'] at hgv
        obtain ⟨hvne, hvlast, hvpat⟩ :
            vv ≠ [] ∧ (match vv.getLast? with
              | some c => !jsWs c | none => false) = true ∧
              hasIdPat vv = false := by
          exact ⟨by simpa using hgv.1.1, hgv.1.2, hgv.2⟩
        have e1 : famToString (.mk (.str (c0 :: s')) (some ii) (some tg)
            (some vv) ch) =
            c0 :: s' ++ ' ' :: (ii ++ ' ' :: (tg ++ ' ' :: vv)) := by
          simp [famToString, FamilyRow.level, FamilyRow.id, FamilyRow.tag,
            FamilyRow.value, JsLevel.render, hlz0]
        rw [e1]
        have endLast : (match (ii ++ ' ' :: (tg ++ ' ' :: vv)).getLast? with
            | some c => !jsWs c | none => false) = true := by
          have : (ii ++ ' ' :: (tg ++ ' ' :: vv)).getLast? =
              vv.getLast? := by
            have := getLast?_concat (ii ++ ' ' :: tg ++ [' ']) vv hvne
            simpa using this
          rw [this]
          exact hvlast
        refine ⟨trimOf _ endLast, by simp, ?_⟩
        rw [formatLine]
        have hsplit : jsSplitSpace
            (c0 :: s' ++ ' ' :: (ii ++ ' ' :: (tg ++ ' ' :: vv))) =
            (c0 :: s') :: ii :: tg :: jsSplitSpace vv := by
          rw [splitSeg _ _ hsp, splitSeg _ _ hip, splitSeg _ _ htp]
        rw [hsplit]
        have hvjoin : joinSpace (jsSplitSpace vv) = vv := joinSplit vv
        have hvlen : 0 < (jsSplitSpace vv).length :=
          List.length_pos.mpr (jsSplitSpace_ne_nil vv)
        simp [formatTokens, hiat, finishTag, hvlen, hvjoin, hvpat, stripRow,
          FamilyRow.level, FamilyRow.id, FamilyRow.tag, FamilyRow.value,
          mkFamilyRow]
    · -- level not 0: the id is emitted after the tag and recovered through
      -- the id pattern, the value being absent
      rw [if_neg (by simpa using hd0)] at hiv
      simp only [Bool.and_eq_true, beq_iff_eq] at hiv
      have hvnone := hiv.1.1
      have hipat := hiv.1.2
      have hilast := hiv.2
      subst hvnone
      have hlzn : (JsLevel.str (c0 :: s')).looseEqZero = false := by
        rw [hlz]
        simpa using hd0
      have e1 : famToString (.mk (.str (c0 :: s')) (some ii) (some tg)
          none ch) = c0 :: s' ++ ' ' :: (tg ++ ' ' :: ii) := by
        simp [famToString, FamilyRow.level, FamilyRow.id, FamilyRow.tag,
          FamilyRow.value, JsLevel.render, hlzn]
      rw [e1]
      have hine : ii ≠ [] := by
        intro hriv
        rw [hriv] at hilast
        simp at hilast
      have tiLast : (match (tg ++ ' ' :: ii).getLast? with
          | some c => !jsWs c | none => false) = true := by
        have : (tg ++ ' ' :: ii).getLast? = ii.getLast? := by
          have := getLast?_concat (tg ++ [' ']) ii hine
          simpa using this
        rw [this]
        exact hilast
      refine ⟨trimOf _ tiLast, by simp, ?_⟩
      rw [formatLine]
      have hsplit : jsSplitSpace (c0 :: s' ++ ' ' :: (tg ++ ' ' :: ii)) =
          (c0 :: s') :: tg :: jsSplitSpace ii := by
        rw [splitSeg _ _ hsp, splitSeg _ _ htp]
      rw [hsplit]
      have hijoin : joinSpace (jsSplitSpace ii) = ii := joinSplit ii
      have hilen : 0 < (jsSplitSpace ii).length :=
        List.length_pos.mpr (jsSplitSpace_ne_nil ii)
      simp [formatTokens, htat, finishTag, hilen, hijoin, hipat, stripRow,
        FamilyRow.level, FamilyRow.id, FamilyRow.tag, FamilyRow.value,
        mkFamilyRow]

mutual
/-- Number of records in a subtree (termination measure for the
spine-collapse arguments). -/
def rowSize : FamilyRow → Nat
    | .mk _ _ _ _ ch => 1 + childrenSize ch
def childrenSize : List (Str × Entry) → Nat
    | [] => 0
    | (_, e) :: rest => entrySize e + childrenSize rest
def entrySize : Entry → Nat
    | .one m => rowSize m
    | .many xs => manySize xs
def manySize : List FamilyRow → Nat
    | [] => 0
    | m :: ms => rowSize m + manySize ms
end

/-- Remove the last member of the last child entry (the record that is
still open on the parse stack while its parent is being reconstructed):
returns the remaining children and that member. -/
def dropLastMember : List (Str × Entry) → Option (List (Str × Entry) × FamilyRow)
  | [] => none
  | [(_, .one m)] => some ([], m)
  | [(k, .many xs)] =>
    match xs.getLast? with
    | none => none
    | some m =>
      if xs.dropLast.isEmpty then some ([], m)
      else some ([(k, .many xs.dropLast)], m)
  | p :: q :: rest =>
    (dropLastMember (q :: rest)).map (fun pr => (p :: pr.1, pr.2))

theorem rowSize_le_manySize {m : FamilyRow} :
    ∀ {xs : List FamilyRow}, m ∈ xs → rowSize m ≤ manySize xs := by
  intro xs hm
  induction xs with
  | nil => cases hm
  | cons y ys ih =>
    rw [manySize]
    rcases List.mem_cons.mp hm with h | h
    · subst h
      omega
    · have := ih h
      omega

theorem manySize_dropLast : ∀ xs : List FamilyRow,
    manySize xs.dropLast ≤ manySize xs := by
  intro xs
  induction xs with
  | nil => simp [manySize]
  | cons y ys ih =>
    cases ys with
    | nil => simp [manySize]
    | cons z zs =>
      rw [List.dropLast_cons₂, manySize, manySize]
      omega

theorem dlm_size : ∀ (ch : List (Str × Entry)) ch' m,
    dropLastMember ch = some (ch', m) →
    rowSize m ≤ childrenSize ch ∧ childrenSize ch' ≤ childrenSize ch := by
  intro ch
  induction ch with
  | nil => intro ch' m h; simp [dropLastMember] at h
  | cons p rest ih =>
    intro ch' m h
    cases rest with
    | cons q rest2 =>
      obtain ⟨qk, qe⟩ := q
      rw [dropLastMember] at h
      cases hd : dropLastMember ((qk, qe) :: rest2) with
      | none => rw [hd] at h; simp at h
      | some pr =>
        rw [hd] at h
        simp only [Option.map_some', Option.some.injEq, Prod.mk.injEq] at h
        obtain ⟨h1, h2⟩ := h
        subst h1
        subst h2
        have hq := ih pr.1 pr.2 hd
        obtain ⟨pk, pe⟩ := p
        simp only [childrenSize] at hq ⊢
        omega
    | nil =>
      obtain ⟨k, e⟩ := p
      cases e with
      | one m0 =>
        rw [dropLastMember] at h
        simp only [Option.some.injEq, Prod.mk.injEq] at h
        obtain ⟨h1, h2⟩ := h
        subst h1
        subst h2
        simp [childrenSize, entrySize]
      | many xs =>
        rw [dropLastMember] at h
        cases hg : xs.getLast? with
        | none => rw [hg] at h; simp at h
        | some m0 =>
          rw [hg] at h
          have hmem : m0 ∈ xs := List.mem_of_mem_getLast? hg
          have hsz := rowSize_le_manySize hmem
          have hdl := manySize_dropLast xs
          by_cases hde : xs.dropLast.isEmpty = true
          · simp only [hde, if_true, Option.some.injEq, Prod.mk.injEq] at h
            obtain ⟨h1, h2⟩ := h
            subst h1
            subst h2
            simp only [childrenSize, entrySize, manySize]
            omega
          · rw [Bool.not_eq_true] at hde
            simp only [hde, Bool.false_eq_true, if_false, Option.some.injEq,
              Prod.mk.injEq] at h
            obtain ⟨h1, h2⟩ := h
            subst h1
            subst h2
            simp only [childrenSize, entrySize, manySize]
            omega

/-- The open-record spine of a subtree: the rightmost descent path as it
sits on the parse stack just after the subtree's last line, deepest record
first, each record holding the children parsed so far. -/
def openSpine (r : FamilyRow) : List FamilyRow :=
  match h : dropLastMember r.children with
  | none => [r]
  | some (ch', m) => openSpine m ++ [r.setChildren ch']
termination_by rowSize r
decreasing_by
  have := (dlm_size r.children ch' m h).1
  cases r with
  | mk l i t v ch =>
    simp only [FamilyRow.children] at h this
    rw [rowSize]
    omega

theorem goodManyB_eq_all (d : Int) (k : Str) : ∀ xs : List FamilyRow,
    goodManyB d k xs =
      xs.all (fun m => (m.tag == some k) && goodRow (d + 1) m)
  | [] => by simp [goodManyB]
  | m :: ms => by
    rw [goodManyB, goodManyB_eq_all d k ms, List.all_cons]

theorem dropLast_append_getLast?Eq :
    ∀ (xs : List FamilyRow) (m : FamilyRow), xs.getLast? = some m →
      xs.dropLast ++ [m] = xs
  | [], m, h => by simp at h
  | [a], m, h => by
    simp only [List.getLast?_singleton, Option.some.injEq] at h
    subst h
    rfl
  | a :: b :: rest, m, h => by
    rw [List.getLast?_cons_cons] at h
    rw [List.dropLast_cons₂, List.cons_append,
      dropLast_append_getLast?Eq (b :: rest) m h]

/-- A nonempty well-formed children list has a last member. -/
theorem dlm_some (d : Int) : ∀ ch : List (Str × Entry),
    goodChildrenB d ch = true → ch ≠ [] →
    (dropLastMember ch).isSome = true := by
  intro ch
  induction ch with
  | nil => intro _ hne; exact absurd rfl hne
  | cons p rest ih =>
    intro hg _
    rw [goodChildrenB] at hg
    obtain ⟨pk, pe⟩ := p
    simp only [Bool.and_eq_true] at hg
    cases rest with
    | cons q rest2 =>
      have := ih hg.2 (by simp)
      rw [dropLastMember]
      cases hd : dropLastMember (q :: rest2) with
      | none => rw [hd] at this; simp at this
      | some pr => simp
    | nil =>
      cases pe with
      | one m => simp [dropLastMember]
      | many xs =>
        rw [goodEntryB] at hg
        have hne : xs ≠ [] := by
          have h2 := hg.1
          simp only [Bool.and_eq_true, Bool.not_eq_true'] at h2
          simpa using h2.1.1
        have : xs.getLast?.isSome = true := by
          rw [List.getLast?_isSome]
          exact hne
        rw [dropLastMember]
        cases hg2 : xs.getLast? with
        | none => rw [hg2] at this; simp at this
        | some m0 =>
          by_cases hde : xs.dropLast.isEmpty = true
          · simp [hde]
          · rw [Bool.not_eq_true] at hde
            simp [hde]

/-- Specification of `dropLastMember` on well-formed children: the removed
member is well formed at the next depth, its tag is one of the present
keys, and `parseLine`'s insertion puts it back exactly. -/
theorem dlm_spec (d : Int) : ∀ (ch ch' : List (Str × Entry)) (m : FamilyRow),
    keysNodupB ch = true → goodChildrenB d ch = true →
    dropLastMember ch = some (ch', m) →
    goodRow (d + 1) m = true ∧
    insertChild ch' (m.tag.getD undefKey) m = ch ∧
    (ch.map Prod.fst).contains (m.tag.getD undefKey) = true := by
  intro ch
  induction ch with
  | nil => intro ch' m _ _ h; simp [dropLastMember] at h
  | cons p rest ih =>
    intro ch' m hnd hg h
    obtain ⟨pk, pe⟩ := p
    rw [goodChildrenB] at hg
    rw [keysNodupB] at hnd
    simp only [Bool.and_eq_true] at hg hnd
    cases rest with
    | cons q rest2 =>
      rw [dropLastMember] at h
      cases hd : dropLastMember (q :: rest2) with
      | none => rw [hd] at h; simp at h
      | some pr =>
        rw [hd] at h
        simp only [Option.map_some', Option.some.injEq, Prod.mk.injEq] at h
        obtain ⟨h1, h2⟩ := h
        subst h1
        subst h2
        obtain ⟨hgm, hins, hkey⟩ := ih pr.1 pr.2 hnd.2 hg.2 hd
        have hne : (pk == pr.2.tag.getD undefKey) = false := by
          rw [List.contains_eq_any_beq] at hkey
          simp only [List.any_eq_true] at hkey
          obtain ⟨k0, hk0mem, hk0eq⟩ := hkey
          have hk0 : pr.2.tag.getD undefKey = k0 := by
            simpa using hk0eq
          subst hk0
          have hall := List.all_eq_true.mp hnd.1
          obtain ⟨e0, he0⟩ := List.exists_of_mem_map hk0mem
          have h3 := hall e0 he0.1
          rw [he0.2] at h3
          rw [beq_eq_false_iff_ne]
          intro hcon
          rw [hcon] at h3
          simp at h3
        refine ⟨hgm, ?_, ?_⟩
        · rw [insertChild.eq_def]
          simp only [hne, Bool.false_eq_true, if_false]
          rw [hins]
        · simp only [List.map_cons, List.contains_cons] at hkey ⊢
          rw [hkey, Bool.or_true]
    | nil =>
      cases pe with
      | one m0 =>
        rw [dropLastMember] at h
        simp only [Option.some.injEq, Prod.mk.injEq] at h
        obtain ⟨h1, h2⟩ := h
        subst h1
        subst h2
        rw [goodEntryB] at hg
        simp only [Bool.and_eq_true] at hg
        have htag : m0.tag = some pk := by simpa using hg.1.1.2
        have hrel : pk ∉ relTags := by
          have h4 := hg.1.1.1
          simpa using h4
        refine ⟨hg.1.2, ?_, ?_⟩
        · rw [htag]
          simp only [Option.getD_some]
          rw [insertChild.eq_def]
          simp [hrel]
        · rw [htag]
          simp
      | many xs =>
        rw [dropLastMember] at h
        cases hgl : xs.getLast? with
        | none => rw [hgl] at h; simp at h
        | some m0 =>
          rw [hgl] at h
          rw [goodEntryB] at hg
          simp only [Bool.and_eq_true] at hg
          have hor := hg.1.1.2
          have hmany := hg.1.2
          have hall : xs.all
              (fun mm => (mm.tag == some pk) && goodRow (d + 1) mm) =
              true := by
            rw [← goodManyB_eq_all]
            exact hmany
          have hm0mem : m0 ∈ xs := List.mem_of_mem_getLast? hgl
          have hm0 := List.all_eq_true.mp hall m0 hm0mem
          simp only [Bool.and_eq_true, beq_iff_eq] at hm0
          by_cases hde : xs.dropLast.isEmpty = true
          · simp only [hde, if_true, Option.some.injEq, Prod.mk.injEq] at h
            obtain ⟨h1, h2⟩ := h
            subst h1
            subst h2
            have hxone : xs = [m0] := by
              have hdl : xs.dropLast = [] := by simpa using hde
              have h5 := dropLast_append_getLast?Eq xs m0 hgl
              rw [hdl] at h5
              simpa using h5.symm
            have hrel : pk ∈ relTags := by
              simp only [Bool.or_eq_true] at hor
              rcases hor with hr | hlen
              · simpa using hr
              · rw [hxone] at hlen
                simp at hlen
            refine ⟨hm0.2, ?_, ?_⟩
            · rw [hm0.1]
              simp only [Option.getD_some]
              rw [insertChild.eq_def]
              simp [hrel, hxone]
            · rw [hm0.1]
              simp
          · rw [Bool.not_eq_true] at hde
            simp only [hde, Bool.false_eq_true, if_false, Option.some.injEq,
              Prod.mk.injEq] at h
            obtain ⟨h1, h2⟩ := h
            subst h1
            subst h2
            refine ⟨hm0.2, ?_, ?_⟩
            · rw [hm0.1]
              simp only [Option.getD_some]
              rw [insertChild.eq_def]
              simp only [beq_self_eq_true, if_true]
              rw [dropLast_append_getLast?Eq xs m0 hgl]
            · rw [hm0.1]
              simp

mutual
/-- Constructor-counting weight of a subtree (every recursive call of the
serializer and of the parse simulation strictly decreases it). -/
def rowW : FamilyRow → Nat
    | .mk _ _ _ _ ch => 1 + chW ch
def chW : List (Str × Entry) → Nat
    | [] => 1
    | (_, e) :: rest => 1 + eW e + chW rest
def eW : Entry → Nat
    | .one m => 1 + rowW m
    | .many xs => 1 + mW xs
def mW : List FamilyRow → Nat
    | [] => 1
    | m :: ms => 1 + rowW m + mW ms
end

theorem one_le_rowW (m : FamilyRow) : 1 ≤ rowW m := by
  cases m with
  | mk l i t v ch => rw [rowW]; omega

theorem one_le_chW (ch : List (Str × Entry)) : 1 ≤ chW ch := by
  cases ch with
  | nil => rw [chW]
  | cons p rest => obtain ⟨k, e⟩ := p; rw [chW]; omega

theorem one_le_eW (e : Entry) : 1 ≤ eW e := by
  cases e with
  | one m => rw [eW]; omega
  | many xs => rw [eW]; omega

theorem one_le_mW (xs : List FamilyRow) : 1 ≤ mW xs := by
  cases xs with
  | nil => rw [mW]
  | cons m ms => rw [mW]; omega

/-- `parseLine`'s insertion scans past every key different from the target
(an untouched prefix distributes out). -/
theorem insertChild_notMem : ∀ (ch0 : List (Str × Entry)) (k : Str)
    (m : FamilyRow) (rest : List (Str × Entry)),
    (ch0.map Prod.fst).contains k = false →
    insertChild (ch0 ++ rest) k m = ch0 ++ insertChild rest k m := by
  intro ch0
  induction ch0 with
  | nil => intro k m rest _; rfl
  | cons p ch0' ih =>
    intro k m rest h
    obtain ⟨a, ea⟩ := p
    simp only [List.map_cons, List.contains_cons, Bool.or_eq_false_iff] at h
    have hk := h.1
    rw [beq_eq_false_iff_ne] at hk
    have hak : (a == k) = false := beq_eq_false_iff_ne.mpr (Ne.symm hk)
    rw [List.cons_append, insertChild.eq_def]
    simp only [hak, Bool.false_eq_true, if_false, List.cons_append,
      List.cons.injEq, true_and]
    exact ih k m rest h.2

theorem insertChild_nil_rel (k : Str) (m : FamilyRow)
    (h : relTags.contains k = true) :
    insertChild [] k m = [(k, .many [m])] := by
  rw [insertChild, h]
  simp

theorem insertChild_nil_one (k : Str) (m : FamilyRow)
    (h : relTags.contains k = false) :
    insertChild [] k m = [(k, .one m)] := by
  rw [insertChild, h]
  simp

theorem insertChild_found_one (k : Str) (m1 m : FamilyRow) :
    insertChild [(k, .one m1)] k m = [(k, .many [m1, m])] := by
  rw [insertChild]
  simp

theorem insertChild_found_many (k : Str) (ys : List FamilyRow)
    (m : FamilyRow) :
    insertChild [(k, .many ys)] k m = [(k, .many (ys ++ [m]))] := by
  rw [insertChild]
  simp

/-- In a duplicate-free child list every key is fresh with respect to the
entries before it. -/
theorem keysNodup_fresh : ∀ (ch0 : List (Str × Entry)) (k : Str) (e : Entry)
    (rest : List (Str × Entry)),
    keysNodupB (ch0 ++ (k, e) :: rest) = true →
    (ch0.map Prod.fst).contains k = false := by
  intro ch0
  induction ch0 with
  | nil => intro k e rest _; rfl
  | cons p ch0' ih =>
    intro k e rest h
    obtain ⟨a, ea⟩ := p
    rw [List.cons_append, keysNodupB] at h
    simp only [Bool.and_eq_true, List.all_eq_true] at h
    have hmem : (k, e) ∈ ch0' ++ (k, e) :: rest :=
      List.mem_append_right _ (List.mem_cons_self _ _)
    have hka := h.1 _ hmem
    simp only [Bool.not_eq_true'] at hka
    simp only [List.map_cons, List.contains_cons, Bool.or_eq_false_iff]
    exact ⟨hka, ih k e rest h.2⟩

/-- The parent walk stops immediately when the current record's level is not
greater than the bound. -/
theorem walkStop (f : FamilyRow) (lv : Option Int) (anc : List FamilyRow)
    (h : optGT f.level.toNum lv = false) : walkClose lv f anc = (f, anc) := by
  cases anc with
  | nil => rfl
  | cons g rest =>
    rw [walkClose, h]
    simp

/-- The parse loop over a list of emitted lines (the fold inside `parse`
after trimming and blank-line removal). -/
def runEmit (st : FamilyRow × List FamilyRow) (ls : List Str) :
    FamilyRow × List FamilyRow :=
  ls.foldl (fun s l => parseStep s (formatLine (jsTrim l))) st

theorem runEmit_append (st : FamilyRow × List FamilyRow) (a b : List Str) :
    runEmit st (a ++ b) = runEmit (runEmit st a) b := by
  rw [runEmit, List.foldl_append]
  rfl

/-- The machine state `st` behaves, for every later close-walk bounded by
`d` and for the final close-out, exactly like the consolidated state
`(g, anc)`: the still-open right spine folded inside `st` collapses back
into `g`. -/
def collapses (st : FamilyRow × List FamilyRow) (d : Int) (g : FamilyRow)
    (anc : List FamilyRow) : Prop :=
  (∀ dd : Int, dd ≤ d →
    walkClose (some dd) st.1 st.2 = walkClose (some dd) g anc) ∧
  closeAll st.1 st.2 = closeAll g anc

theorem collapses_refl (g : FamilyRow) (anc : List FamilyRow) (d : Int) :
    collapses (g, anc) d g anc := ⟨fun _ _ => rfl, rfl⟩

theorem goodLevel_toNum {a : Int} {lv : JsLevel} (h : goodLevel a lv = true) :
    lv.toNum = some a := by
  cases lv with
  | str s =>
    rw [goodLevel] at h
    simp only [Bool.and_eq_true, beq_iff_eq] at h
    rw [JsLevel.toNum]
    exact h.1
  | undef => simp [goodLevel] at h
  | num n => simp [goodLevel] at h

theorem close1_mk (m : FamilyRow) (lv : JsLevel) (i t v : Option Str)
    (ch0 : List (Str × Entry)) :
    close1 m (.mk lv i t v ch0) =
      .mk lv i t v (insertChild ch0 (m.tag.getD undefKey) m) := rfl

/-- A state that collapses to a finished record at depth `d + 1` over a stack
headed by `g` also collapses, one level up, to that record closed into
`g`. -/
theorem collapse_push {st : FamilyRow × List FamilyRow} {d : Int}
    {m g : FamilyRow} {anc : List FamilyRow}
    (hlev : m.level.toNum = some (d + 1))
    (h : collapses st (d + 1) m (g :: anc)) :
    collapses st d (close1 m g) anc := by
  constructor
  · intro dd hdd
    rw [h.1 dd (by omega), walkClose]
    have hgt : optGT m.level.toNum (some dd) = true := by
      rw [hlev]
      simp only [optGT, gt_iff_lt, decide_eq_true_eq]
      omega
    rw [hgt]
    simp
  · rw [h.2, closeAll]

theorem goodRow_split {a : Int} {lv : JsLevel} {i t v : Option Str}
    {ch : List (Str × Entry)} (h : goodRow a (.mk lv i t v ch) = true) :
    goodLevel a lv = true ∧ goodTagB t = true ∧ goodIdValue a i v = true ∧
    keysNodupB ch = true ∧ goodChildrenB a ch = true := by
  rw [goodRow] at h
  simp only [Bool.and_eq_true] at h
  exact ⟨h.1.1.1.1, h.1.1.1.2, h.1.1.2, h.1.2, h.2⟩

theorem goodChildren_cons_split {d : Int} {k : Str} {e : Entry}
    {rest : List (Str × Entry)}
    (h : goodChildrenB d ((k, e) :: rest) = true) :
    goodEntryB d k e = true ∧ goodChildrenB d rest = true := by
  rw [goodChildrenB] at h
  simp only [Bool.and_eq_true] at h
  exact h

theorem goodEntry_one_split {d : Int} {k : Str} {m : FamilyRow}
    (h : goodEntryB d k (.one m) = true) :
    relTags.contains k = false ∧ m.tag = some k ∧
    goodRow (d + 1) m = true := by
  rw [goodEntryB] at h
  simp only [Bool.and_eq_true, Bool.not_eq_true', beq_iff_eq] at h
  exact ⟨h.1.1, h.1.2, h.2⟩

theorem goodEntry_many_split {d : Int} {k : Str} {xs : List FamilyRow}
    (h : goodEntryB d k (.many xs) = true) :
    xs ≠ [] ∧ (relTags.contains k = true ∨ 2 ≤ xs.length) ∧
    goodManyB d k xs = true := by
  rw [goodEntryB] at h
  simp only [Bool.and_eq_true, Bool.not_eq_true', Bool.or_eq_true,
    decide_eq_true_eq] at h
  refine ⟨?_, h.1.2, h.2⟩
  have := h.1.1
  simpa using this

theorem goodMany_cons_split {d : Int} {k : Str} {m : FamilyRow}
    {ms : List FamilyRow} (h : goodManyB d k (m :: ms) = true) :
    m.tag = some k ∧ goodRow (d + 1) m = true ∧ goodManyB d k ms = true := by
  rw [goodManyB] at h
  simp only [Bool.and_eq_true, beq_iff_eq] at h
  exact ⟨h.1.1, h.1.2, h.2⟩

/-- Feeding the opening line of a well-formed record at depth `d + 1` to the
parse loop, from any state that collapses to a parent at depth `d`, closes
the pending spine into the parent and pushes the fresh record. -/
theorem stepLine {d : Int} {m : FamilyRow} {lv : JsLevel} {i t v : Option Str}
    {ch0 : List (Str × Entry)} {anc : List FamilyRow}
    {st0 : FamilyRow × List FamilyRow}
    (hm : goodRow (d + 1) m = true)
    (hlv : lv.toNum = some d)
    (hc : collapses st0 d (.mk lv i t v ch0) anc) :
    parseStep st0 (formatLine (jsTrim (famToString m))) =
      (stripRow m, (FamilyRow.mk lv i t v ch0) :: anc) := by
  cases m with
  | mk lvm im tm vm chm =>
    have hsp := goodRow_split hm
    have hrt := lineRoundTrip (d + 1) lvm im tm vm chm hsp.1 hsp.2.1 hsp.2.2.1
    rw [hrt.1, hrt.2.2]
    have hlevm : JsLevel.toNum lvm = some (d + 1) := goodLevel_toNum hsp.1
    have hstop : walkClose (some d) st0.1 st0.2 =
        (FamilyRow.mk lv i t v ch0, anc) := by
      rw [hc.1 d le_rfl]
      refine walkStop _ _ _ ?_
      simp only [FamilyRow.level, hlv, optGT, gt_iff_lt,
        decide_eq_false_iff_not]
      omega
    have harith : (d + 1 - 1 : Int) = d := by omega
    rw [parseStep]
    simp only [stripRow, FamilyRow.level, FamilyRow.id, FamilyRow.tag,
      FamilyRow.value, hlevm, Option.map_some', harith, hstop]

theorem insertChild_fresh_one (ch0 : List (Str × Entry)) (k : Str)
    (m : FamilyRow) (hfresh : (ch0.map Prod.fst).contains k = false)
    (hrel : relTags.contains k = false) :
    insertChild ch0 k m = ch0 ++ [(k, Entry.one m)] := by
  have h1 := insertChild_notMem ch0 k m [] hfresh
  rw [List.append_nil] at h1
  rw [h1, insertChild_nil_one k m hrel]

theorem insertChild_fresh_rel (ch0 : List (Str × Entry)) (k : Str)
    (m : FamilyRow) (hfresh : (ch0.map Prod.fst).contains k = false)
    (hrel : relTags.contains k = true) :
    insertChild ch0 k m = ch0 ++ [(k, Entry.many [m])] := by
  have h1 := insertChild_notMem ch0 k m [] hfresh
  rw [List.append_nil] at h1
  rw [h1, insertChild_nil_rel k m hrel]

theorem insertChild_last_one (ch0 : List (Str × Entry)) (k : Str)
    (m1 m : FamilyRow) (hfresh : (ch0.map Prod.fst).contains k = false) :
    insertChild (ch0 ++ [(k, Entry.one m1)]) k m =
      ch0 ++ [(k, Entry.many [m1, m])] := by
  rw [insertChild_notMem ch0 k m _ hfresh, insertChild_found_one]

theorem insertChild_last_many (ch0 : List (Str × Entry)) (k : Str)
    (ys : List FamilyRow) (m : FamilyRow)
    (hfresh : (ch0.map Prod.fst).contains k = false) :
    insertChild (ch0 ++ [(k, Entry.many ys)]) k m =
      ch0 ++ [(k, Entry.many (ys ++ [m]))] := by
  rw [insertChild_notMem ch0 k m _ hfresh, insertChild_found_many]

theorem runEmit_cons (st : FamilyRow × List FamilyRow) (l : Str)
    (ls : List Str) :
    runEmit st (l :: ls) =
      runEmit (parseStep st (formatLine (jsTrim l))) ls := rfl

/-- Emitting a well-formed record at depth `d + 1` into the parse loop
extends the parent under reconstruction by exactly the `parseLine`
insertion of that record. -/
def SimP (m : FamilyRow) : Prop :=
  ∀ (d : Int) (lv : JsLevel) (i t v : Option Str)
    (ch0 : List (Str × Entry)) (anc : List FamilyRow)
    (st0 : FamilyRow × List FamilyRow),
  goodRow (d + 1) m = true → lv.toNum = some d →
  collapses st0 d (.mk lv i t v ch0) anc →
  collapses (runEmit st0 (createFileContentOne m)) d
    (.mk lv i t v (insertChild ch0 (m.tag.getD undefKey) m)) anc

/-- Emitting a well-formed child list appends it verbatim to the children
accumulated so far in the parent under reconstruction. -/
def SimQ (ch : List (Str × Entry)) : Prop :=
  ∀ (d : Int) (lv : JsLevel) (i t v : Option Str)
    (ch0 : List (Str × Entry)) (anc : List FamilyRow)
    (st0 : FamilyRow × List FamilyRow),
  goodChildrenB d ch = true → keysNodupB (ch0 ++ ch) = true →
  lv.toNum = some d →
  collapses st0 d (.mk lv i t v ch0) anc →
  collapses (runEmit st0 (serChildren ch)) d (.mk lv i t v (ch0 ++ ch)) anc

/-- Emitting one well-formed entry with a fresh key appends that entry. -/
def SimR (e : Entry) : Prop :=
  ∀ (d : Int) (k : Str) (lv : JsLevel) (i t v : Option Str)
    (ch0 : List (Str × Entry)) (anc : List FamilyRow)
    (st0 : FamilyRow × List FamilyRow),
  goodEntryB d k e = true → (ch0.map Prod.fst).contains k = false →
  lv.toNum = some d →
  collapses st0 d (.mk lv i t v ch0) anc →
  collapses (runEmit st0 (serEntry e)) d
    (.mk lv i t v (ch0 ++ [(k, e)])) anc

/-- Emitting further members of an array entry already holding `ys` appends
them to that array. -/
def SimS (xs : List FamilyRow) : Prop :=
  ∀ (d : Int) (k : Str) (ys : List FamilyRow) (lv : JsLevel)
    (i t v : Option Str) (ch0 : List (Str × Entry)) (anc : List FamilyRow)
    (st0 : FamilyRow × List FamilyRow),
  goodManyB d k xs = true → (ch0.map Prod.fst).contains k = false →
  lv.toNum = some d →
  collapses st0 d (.mk lv i t v (ch0 ++ [(k, Entry.many ys)])) anc →
  collapses (runEmit st0 (serMany xs)) d
    (.mk lv i t v (ch0 ++ [(k, Entry.many (ys ++ xs))])) anc

/-- Joint simulation of `parse` over the serializer's emission, by induction
on the constructor weight of the emitted fragment. -/
theorem simMaster : ∀ n : Nat,
    (∀ m, rowW m ≤ n → SimP m) ∧ (∀ ch, chW ch ≤ n → SimQ ch) ∧
    (∀ e, eW e ≤ n → SimR e) ∧ (∀ xs, mW xs ≤ n → SimS xs) := by
  intro n
  induction n with
  | zero =>
    refine ⟨fun m hm => ?_, fun ch hch => ?_, fun e he => ?_,
      fun xs hxs => ?_⟩
    · exact absurd hm (by have := one_le_rowW m; omega)
    · exact absurd hch (by have := one_le_chW ch; omega)
    · exact absurd he (by have := one_le_eW e; omega)
    · exact absurd hxs (by have := one_le_mW xs; omega)
  | succ n ih =>
    obtain ⟨ihP, ihQ, ihR, ihS⟩ := ih
    refine ⟨fun m hw => ?_, fun ch hw => ?_, fun e hw => ?_,
      fun xs hw => ?_⟩
    · cases m with
      | mk lvm im tm vm chm =>
        intro d lv i t v ch0 anc st0 hm hlv hc
        have hsp := goodRow_split hm
        have hwch : chW chm ≤ n := by rw [rowW] at hw; omega
        rw [createFileContentOne, runEmit_cons, stepLine hm hlv hc]
        have hstrip : stripRow (FamilyRow.mk lvm im tm vm chm) =
            FamilyRow.mk lvm im tm vm [] := rfl
        rw [hstrip]
        have hlevm : JsLevel.toNum lvm = some (d + 1) :=
          goodLevel_toNum hsp.1
        have hnd2 : keysNodupB ([] ++ chm) = true := by
          rw [List.nil_append]
          exact hsp.2.2.2.1
        have hq := ihQ chm hwch (d + 1) lvm im tm vm []
          (FamilyRow.mk lv i t v ch0 :: anc)
          (FamilyRow.mk lvm im tm vm [], FamilyRow.mk lv i t v ch0 :: anc)
          hsp.2.2.2.2 hnd2 hlevm (collapses_refl _ _ _)
        rw [List.nil_append] at hq
        have hlev2 : (FamilyRow.mk lvm im tm vm chm).level.toNum =
            some (d + 1) := goodLevel_toNum hsp.1
        have hpush := collapse_push hlev2 hq
        rw [close1_mk] at hpush
        exact hpush
    · cases ch with
      | nil =>
        intro d lv i t v ch0 anc st0 hg hnd hlv hc
        rw [serChildren, List.append_nil]
        exact hc
      | cons p rest =>
        obtain ⟨k, e⟩ := p
        intro d lv i t v ch0 anc st0 hg hnd hlv hc
        have hgs := goodChildren_cons_split hg
        have hfresh := keysNodup_fresh ch0 k e rest hnd
        have hwe : eW e ≤ n := by rw [chW] at hw; omega
        have hwr : chW rest ≤ n := by rw [chW] at hw; omega
        rw [serChildren, runEmit_append]
        have hr := ihR e hwe d k lv i t v ch0 anc st0 hgs.1 hfresh hlv hc
        have hnd2 : keysNodupB ((ch0 ++ [(k, e)]) ++ rest) = true := by
          rw [List.append_assoc, List.singleton_append]
          exact hnd
        have hq := ihQ rest hwr d lv i t v (ch0 ++ [(k, e)]) anc _
          hgs.2 hnd2 hlv hr
        rw [List.append_assoc, List.singleton_append] at hq
        exact hq
    · cases e with
      | one m =>
        intro d k lv i t v ch0 anc st0 hg hfresh hlv hc
        have hgs := goodEntry_one_split hg
        have hwm : rowW m ≤ n := by rw [eW] at hw; omega
        rw [serEntry]
        have hp := ihP m hwm d lv i t v ch0 anc st0 hgs.2.2 hlv hc
        rw [hgs.2.1] at hp
        simp only [Option.getD_some] at hp
        rw [insertChild_fresh_one ch0 k m hfresh hgs.1] at hp
        exact hp
      | many xs =>
        intro d k lv i t v ch0 anc st0 hg hfresh hlv hc
        have hgs := goodEntry_many_split hg
        cases xs with
        | nil => exact absurd rfl hgs.1
        | cons m1 ms =>
          have hms := goodMany_cons_split hgs.2.2
          have hwm1 : rowW m1 ≤ n := by rw [eW, mW] at hw; omega
          rw [serEntry, serMany, runEmit_append]
          have hp1 := ihP m1 hwm1 d lv i t v ch0 anc st0 hms.2.1 hlv hc
          rw [hms.1] at hp1
          simp only [Option.getD_some] at hp1
          by_cases hrel : relTags.contains k = true
          · rw [insertChild_fresh_rel ch0 k m1 hfresh hrel] at hp1
            have hwms : mW ms ≤ n := by rw [eW, mW] at hw; omega
            have hs := ihS ms hwms d k [m1] lv i t v ch0 anc _
              hms.2.2 hfresh hlv hp1
            rw [List.singleton_append] at hs
            exact hs
          · rw [Bool.not_eq_true] at hrel
            have hlen : 2 ≤ (m1 :: ms).length := by
              rcases hgs.2.1 with h | h
              · rw [hrel] at h
                exact absurd h (by simp)
              · exact h
            cases ms with
            | nil => simp at hlen
            | cons m2 ms2 =>
              have hms2 := goodMany_cons_split hms.2.2
              have hwm2 : rowW m2 ≤ n := by rw [eW, mW, mW] at hw; omega
              have hwms2 : mW ms2 ≤ n := by rw [eW, mW, mW] at hw; omega
              rw [serMany, runEmit_append]
              rw [insertChild_fresh_one ch0 k m1 hfresh hrel] at hp1
              have hp2 := ihP m2 hwm2 d lv i t v (ch0 ++ [(k, Entry.one m1)])
                anc _ hms2.2.1 hlv hp1
              rw [hms2.1] at hp2
              simp only [Option.getD_some] at hp2
              rw [insertChild_last_one ch0 k m1 m2 hfresh] at hp2
              have hs := ihS ms2 hwms2 d k [m1, m2] lv i t v ch0 anc _
                hms2.2.2 hfresh hlv hp2
              exact hs
    · cases xs with
      | nil =>
        intro d k ys lv i t v ch0 anc st0 hg hfresh hlv hc
        rw [serMany, List.append_nil]
        exact hc
      | cons m ms =>
        intro d k ys lv i t v ch0 anc st0 hg hfresh hlv hc
        have hms := goodMany_cons_split hg
        have hwm : rowW m ≤ n := by rw [mW] at hw; omega
        have hwms : mW ms ≤ n := by rw [mW] at hw; omega
        rw [serMany, runEmit_append]
        have hp := ihP m hwm d lv i t v (ch0 ++ [(k, Entry.many ys)]) anc
          st0 hms.2.1 hlv hc
        rw [hms.1] at hp
        simp only [Option.getD_some] at hp
        rw [insertChild_last_many ch0 k ys m hfresh] at hp
        have hs := ihS ms hwms d k (ys ++ [m]) lv i t v ch0 anc _
          hms.2.2 hfresh hlv hp
        rw [List.append_assoc, List.singleton_append] at hs
        exact hs

/-- Every line emitted for a well-formed record is trim-stable and
nonempty (so `parse`'s trim-and-drop-blank preprocessing keeps the emitted
sequence unchanged), by induction on constructor weight. -/
theorem emitClean : ∀ n : Nat,
    (∀ m, rowW m ≤ n → ∀ d : Int, goodRow d m = true →
      ∀ l ∈ createFileContentOne m, jsTrim l = l ∧ 0 < l.length) ∧
    (∀ ch, chW ch ≤ n → ∀ d : Int, goodChildrenB d ch = true →
      ∀ l ∈ serChildren ch, jsTrim l = l ∧ 0 < l.length) ∧
    (∀ e, eW e ≤ n → ∀ (d : Int) (k : Str), goodEntryB d k e = true →
      ∀ l ∈ serEntry e, jsTrim l = l ∧ 0 < l.length) ∧
    (∀ xs, mW xs ≤ n → ∀ (d : Int) (k : Str), goodManyB d k xs = true →
      ∀ l ∈ serMany xs, jsTrim l = l ∧ 0 < l.length) := by
  intro n
  induction n with
  | zero =>
    refine ⟨fun m hm => ?_, fun ch hch => ?_, fun e he => ?_,
      fun xs hxs => ?_⟩
    · exact absurd hm (by have := one_le_rowW m; omega)
    · exact absurd hch (by have := one_le_chW ch; omega)
    · exact absurd he (by have := one_le_eW e; omega)
    · exact absurd hxs (by have := one_le_mW xs; omega)
  | succ n ih =>
    obtain ⟨ihP, ihQ, ihR, ihS⟩ := ih
    refine ⟨fun m hw => ?_, fun ch hw => ?_, fun e hw => ?_,
      fun xs hw => ?_⟩
    · cases m with
      | mk lvm im tm vm chm =>
        intro d hm l hl
        have hsp := goodRow_split hm
        have hrt := lineRoundTrip d lvm im tm vm chm hsp.1 hsp.2.1 hsp.2.2.1
        rw [createFileContentOne, List.mem_cons] at hl
        rcases hl with rfl | hl
        · exact ⟨hrt.1, hrt.2.1⟩
        · exact ihQ chm (by rw [rowW] at hw; omega) d hsp.2.2.2.2 l hl
    · cases ch with
      | nil => intro d _ l hl; rw [serChildren] at hl; cases hl
      | cons p rest =>
        obtain ⟨k, e⟩ := p
        intro d hg l hl
        have hgs := goodChildren_cons_split hg
        rw [serChildren, List.mem_append] at hl
        rcases hl with hl | hl
        · exact ihR e (by rw [chW] at hw; omega) d k hgs.1 l hl
        · exact ihQ rest (by rw [chW] at hw; omega) d hgs.2 l hl
    · cases e with
      | one m =>
        intro d k hg l hl
        have hgs := goodEntry_one_split hg
        rw [serEntry] at hl
        exact ihP m (by rw [eW] at hw; omega) (d + 1) hgs.2.2 l hl
      | many xs =>
        intro d k hg l hl
        have hgs := goodEntry_many_split hg
        rw [serEntry] at hl
        exact ihS xs (by rw [eW] at hw; omega) d k hgs.2.2 l hl
    · cases xs with
      | nil => intro d k _ l hl; rw [serMany] at hl; cases hl
      | cons m ms =>
        intro d k hg l hl
        have hms := goodMany_cons_split hg
        rw [serMany, List.mem_append] at hl
        rcases hl with hl | hl
        · exact ihP m (by rw [mW] at hw; omega) (d + 1) hms.2.1 l hl
        · exact ihS ms (by rw [mW] at hw; omega) d k hms.2.2 l hl

theorem emitCleanChildren {d : Int} {ch : List (Str × Entry)}
    (h : goodChildrenB d ch = true) :
    ∀ l ∈ serChildren ch, jsTrim l = l ∧ 0 < l.length :=
  (emitClean (chW ch)).2.1 ch le_rfl d h

/-- A nonempty well-formed child list emits at least one line. -/
theorem serChildren_ne_nil {d : Int} {ch : List (Str × Entry)}
    (hg : goodChildrenB d ch = true) (hne : ch ≠ []) :
    serChildren ch ≠ [] := by
  cases ch with
  | nil => exact absurd rfl hne
  | cons p rest =>
    obtain ⟨k, e⟩ := p
    have hgs := goodChildren_cons_split hg
    rw [serChildren]
    cases e with
    | one m =>
      cases m with
      | mk l i t v c =>
        rw [serEntry, createFileContentOne]
        simp
    | many xs =>
      have hx := goodEntry_many_split hgs.1
      cases xs with
      | nil => exact absurd rfl hx.1
      | cons m ms =>
        cases m with
        | mk l i t v c =>
          rw [serEntry, serMany, createFileContentOne]
          simp

/-- Trimming and blank-line filtering is the identity on a list of
trim-stable nonempty lines. -/
theorem cleanFilter : ∀ L : List Str,
    (∀ l ∈ L, jsTrim l = l ∧ 0 < l.length) →
    (L.map jsTrim).filter (fun l => l.length > 0) = L := by
  intro L h
  induction L with
  | nil => rfl
  | cons a as ih =>
    have ha := h a (List.mem_cons_self a as)
    rw [List.map_cons, List.filter_cons, ha.1]
    simp only [gt_iff_lt, ha.2, decide_True, if_true]
    rw [ih (fun l hl => h l (List.mem_cons_of_mem a hl))]

/-- The two property keys the serializer orders specially. -/
def headKey : Str := "HEAD".toList

/-- See `headKey`. -/
def trlrKey : Str := "TRLR".toList

/-- The named form of `createFileContent`'s fold step (single `HEAD` records
go to the first bucket, single `TRLR` records to the last, everything else —
including every array-valued property — to the middle). -/
def cfcStep (acc : List Str × List Str × List Str) (p : Str × Entry) :
    List Str × List Str × List Str :=
  let (first, middle, last0) := acc
  match p.2 with
  | .one c =>
    if p.1 == headKey then
      (first ++ createFileContentOne c, middle, last0)
    else if p.1 == trlrKey then
      (first, middle, last0 ++ createFileContentOne c)
    else (first, middle ++ createFileContentOne c, last0)
  | .many cs => (first, middle ++ serMany cs, last0)

/-- Lines contributed to the leading (`HEAD`) bucket. -/
def firsts : List (Str × Entry) → List Str
  | [] => []
  | (k, .one c) :: rest =>
    (if k == headKey then createFileContentOne c else []) ++ firsts rest
  | (_, .many _) :: rest => firsts rest

/-- Lines contributed to the middle bucket. -/
def mids : List (Str × Entry) → List Str
  | [] => []
  | (k, .one c) :: rest =>
    (if k == headKey then []
     else if k == trlrKey then []
     else createFileContentOne c) ++ mids rest
  | (_, .many cs) :: rest => serMany cs ++ mids rest

/-- Lines contributed to the trailing (`TRLR`) bucket. -/
def lasts : List (Str × Entry) → List Str
  | [] => []
  | (k, .one c) :: rest =>
    (if k == headKey then []
     else if k == trlrKey then createFileContentOne c
     else []) ++ lasts rest
  | (_, .many _) :: rest => lasts rest

theorem cfcStep_fold : ∀ (ch : List (Str × Entry)) (f m l : List Str),
    ch.foldl cfcStep (f, m, l) =
      (f ++ firsts ch, m ++ mids ch, l ++ lasts ch) := by
  intro ch
  induction ch with
  | nil => intro f m l; simp [firsts, mids, lasts]
  | cons p rest ih =>
    intro f m l
    obtain ⟨k, e⟩ := p
    rw [List.foldl_cons]
    cases e with
    | many cs =>
      refine (ih f (m ++ serMany cs) l).trans ?_
      simp [firsts, mids, lasts, List.append_assoc]
    | one c =>
      by_cases h1 : k = headKey
      · subst h1
        have hstep : cfcStep (f, m, l) (headKey, Entry.one c) =
            (f ++ createFileContentOne c, m, l) := by
          simp [cfcStep]
        rw [hstep, ih]
        simp [firsts, mids, lasts, List.append_assoc]
      · have h1b : (k == headKey) = false := beq_eq_false_iff_ne.mpr h1
        by_cases h2 : k = trlrKey
        · subst h2
          have hstep : cfcStep (f, m, l) (trlrKey, Entry.one c) =
              (f, m, l ++ createFileContentOne c) := by
            simp [cfcStep, h1b]
          rw [hstep, ih]
          simp [firsts, mids, lasts, h1b, List.append_assoc]
        · have h2b : (k == trlrKey) = false := beq_eq_false_iff_ne.mpr h2
          have hstep : cfcStep (f, m, l) (k, Entry.one c) =
              (f, m ++ createFileContentOne c, l) := by
            simp [cfcStep, h1b, h2b]
          rw [hstep, ih]
          simp [firsts, mids, lasts, h1b, h2b, List.append_assoc]

/-- A single `HEAD`-keyed scalar child. -/
def isHeadOne : Str × Entry → Bool
  | (k, .one _) => k == headKey
  | _ => false

/-- A single `TRLR`-keyed scalar child. -/
def isTrlrOne : Str × Entry → Bool
  | (k, .one _) => k == trlrKey
  | _ => false

/-- No single-`HEAD` child anywhere, and a single-`TRLR` child only in the
final position. -/
def midOK : List (Str × Entry) → Bool
  | [] => true
  | [p] => !isHeadOne p
  | p :: q :: rest => !isHeadOne p && !isTrlrOne p && midOK (q :: rest)

/-- A single-`HEAD` child only in the leading position and a single-`TRLR`
child only in the final position: exactly the property orders on which the
serializer's bucketing is order-preserving. -/
def bucketOK : List (Str × Entry) → Bool
  | [] => true
  | p :: rest => if isHeadOne p then midOK rest else midOK (p :: rest)

theorem midOK_flat : ∀ ch : List (Str × Entry), midOK ch = true →
    firsts ch = [] ∧ mids ch ++ lasts ch = serChildren ch := by
  intro ch
  induction ch with
  | nil => exact fun _ => ⟨rfl, rfl⟩
  | cons p rest ih =>
    intro h
    obtain ⟨k, e⟩ := p
    cases rest with
    | nil =>
      rw [midOK] at h
      cases e with
      | one c =>
        rw [isHeadOne, Bool.not_eq_true'] at h
        by_cases h2 : k = trlrKey
        · subst h2
          simp [firsts, mids, lasts, serChildren, serEntry, h]
        · have h2b : (k == trlrKey) = false := beq_eq_false_iff_ne.mpr h2
          simp [firsts, mids, lasts, serChildren, serEntry, h, h2b]
      | many cs =>
        simp [firsts, mids, lasts, serChildren, serEntry]
    | cons q rest2 =>
      rw [midOK] at h
      simp only [Bool.and_eq_true, Bool.not_eq_true'] at h
      have hih := ih h.2
      cases e with
      | one c =>
        rw [isHeadOne] at h
        rw [isTrlrOne] at h
        refine ⟨?_, ?_⟩
        · simp [firsts, h.1.1, hih.1]
        · rw [mids, lasts, serChildren, serEntry]
          simp only [h.1.1, h.1.2, Bool.false_eq_true, if_false,
            List.append_assoc, List.nil_append]
          rw [hih.2]
      | many cs =>
        refine ⟨?_, ?_⟩
        · simp [firsts, hih.1]
        · rw [mids, lasts, serChildren, serEntry, List.append_assoc, hih.2]

theorem bucketOK_flat : ∀ ch : List (Str × Entry), bucketOK ch = true →
    firsts ch ++ mids ch ++ lasts ch = serChildren ch := by
  intro ch h
  cases ch with
  | nil => rfl
  | cons p rest =>
    rw [bucketOK] at h
    by_cases hh : isHeadOne p = true
    · rw [if_pos hh] at h
      obtain ⟨k, e⟩ := p
      cases e with
      | many cs => exact absurd hh (by simp [isHeadOne])
      | one c =>
        rw [isHeadOne] at hh
        have h1e : k = headKey := by simpa using hh
        subst h1e
        have hflat := midOK_flat rest h
        rw [firsts, mids, lasts, serChildren, serEntry]
        simp [hflat.1, List.append_assoc]
        rw [hflat.2]
    · rw [if_neg hh] at h
      have hflat := midOK_flat _ h
      rw [hflat.1, List.nil_append, hflat.2]

/-- On a bucket-ordered root the serializer emits the children in property
order. -/
theorem createFileContent_flat (top : FamilyRow)
    (hb : bucketOK top.children = true) :
    createFileContent top = serChildren top.children := by
  show (top.children.foldl cfcStep ([], [], [])).1 ++
    (top.children.foldl cfcStep ([], [], [])).2.1 ++
    (top.children.foldl cfcStep ([], [], [])).2.2 = serChildren top.children
  rw [cfcStep_fold]
  simp only [List.nil_append]
  exact bucketOK_flat top.children hb

/-- The structural invariant on a full parse image: the synthetic root
exactly as `formatLine("-1 TOP")` builds it, at least one child, duplicate-
free keys, well-formed children at depth 0 (`goodChildrenB (-1)`), and the
bucket-compatible placement of single `HEAD`/`TRLR` children. -/
def isTopStr : JsLevel → Bool
  | .str s => s == "-1".toList
  | _ => false

def goodTopB : FamilyRow → Bool
  | .mk lv i t v ch =>
    isTopStr lv &&
    i.isNone && (t == some "TOP".toList) && v.isNone &&
    !ch.isEmpty && keysNodupB ch && goodChildrenB (-1) ch && bucketOK ch

/-- The serializer's round-trip equation on structurally well-formed parse
images. -/
theorem C5_amended (T : FamilyRow) (h : goodTopB T = true) :
    parse (some (createFileContent T)) = T := by
  cases T with
  | mk lv i t v ch =>
    rw [goodTopB] at h
    simp only [Bool.and_eq_true] at h
    have hlv := h.1.1.1.1.1.1.1
    have hi := h.1.1.1.1.1.1.2
    have ht := h.1.1.1.1.1.2
    have hv := h.1.1.1.1.2
    have hne := h.1.1.1.2
    have hnd := h.1.1.2
    have hgc := h.1.2
    have hbk := h.2
    obtain ⟨s, rfl⟩ : ∃ s, lv = JsLevel.str s := by
      cases lv with
      | str s => exact ⟨s, rfl⟩
      | undef => simp [isTopStr] at hlv
      | num n => simp [isTopStr] at hlv
    have hs : s = "-1".toList := by
      rw [isTopStr] at hlv
      simpa using hlv
    subst hs
    have hi2 : i = none := Option.isNone_iff_eq_none.mp hi
    subst hi2
    have ht2 : t = some ("TOP".toList) := by simpa using ht
    subst ht2
    have hv2 : v = none := Option.isNone_iff_eq_none.mp hv
    subst hv2
    have hchne : ch ≠ [] := by
      cases ch with
      | nil => simp at hne
      | cons p r => simp
    have hflat : createFileContent
        (FamilyRow.mk (JsLevel.str ("-1".toList)) none
          (some ("TOP".toList)) none ch) = serChildren ch :=
      createFileContent_flat _ hbk
    rw [hflat]
    have hclean := emitCleanChildren hgc
    have hLne : serChildren ch ≠ [] := serChildren_ne_nil hgc hchne
    cases hL : serChildren ch with
    | nil => exact absurd hL hLne
    | cons a as =>
      have hclean2 : ∀ l ∈ a :: as, jsTrim l = l ∧ 0 < l.length :=
        hL ▸ hclean
      show closeAll (runEmit (formatLine topLine, [])
          (((a :: as).map jsTrim).filter (fun l => l.length > 0))).1
        (runEmit (formatLine topLine, [])
          (((a :: as).map jsTrim).filter (fun l => l.length > 0))).2 = _
      rw [cleanFilter _ hclean2, ← hL]
      have htop : formatLine topLine =
          FamilyRow.mk (JsLevel.str ("-1".toList)) none
            (some ("TOP".toList)) none [] := rfl
      rw [htop]
      have hlvtop : (JsLevel.str ("-1".toList)).toNum = some (-1) := by
        decide
      have hkn : keysNodupB ([] ++ ch) = true := by
        rw [List.nil_append]
        exact hnd
      have hq := (simMaster (chW ch)).2.1 ch le_rfl (-1)
        (JsLevel.str ("-1".toList)) none (some ("TOP".toList)) none [] []
        (FamilyRow.mk (JsLevel.str ("-1".toList)) none
          (some ("TOP".toList)) none [], [])
        hgc hkn hlvtop (collapses_refl _ _ _)
      rw [List.nil_append] at hq
      rw [hq.2, closeAll]

/-- The amended round-trip holds on Scenario A's parse image. -/
theorem C5_amended_witness :
    goodTopB (parse (some scenarioALines)) = true ∧
    parse (some (createFileContent (parse (some scenarioALines)))) =
      parse (some scenarioALines) :=
  ⟨rfl, C5_amended (parse (some scenarioALines)) rfl⟩

/-- A level token of the specification's input grammar: a non-negative
integer as text. -/
def specLevelTok (s : Str) : Bool :=
  !s.isEmpty && s.all Char.isDigit

/-- An id token of the specification's input grammar: wrapped in the `@`
marker pair with a nonempty, marker-free, whitespace-free inside. -/
def specIdTok : Str → Bool
  | '@' :: rest =>
    (rest.getLast? == some '@') && !rest.dropLast.isEmpty &&
    rest.dropLast.all (fun c => !(c == '@') && !jsWs c)
  | _ => false

/-- A tag token: nonempty, whitespace free, not starting with the id
marker. -/
def specTagTok (s : Str) : Bool :=
  tokenOk s && !startsWithAt s

/-- A line of the textual shape `<level> [<id>] <tag> [<value>]` given by
the specification's parser contract: the first token a level, an `@`-initial
second token an id followed by a tag, otherwise the second token the tag,
any remaining tokens the value. -/
def wellFormedSpecLine (line : Str) : Bool :=
  match jsSplitSpace line with
  | lvl :: tmp :: rest =>
    specLevelTok lvl &&
    (if startsWithAt tmp then
      specIdTok tmp &&
      (match rest with | tag :: _ => specTagTok tag | [] => false)
     else specTagTok tmp)
  | _ => false

/-- A record line carrying both a non-level-0 id and a value. -/
def c5Lines : List Str :=
  ["0 @I1@ INDI".toList, "1 @X@ NOTE hello".toList]

def c5Orig : FamilyRow := parse (some c5Lines)

def c5Reparse : FamilyRow := parse (some (createFileContent c5Orig))

def c5BadId : Str := "@X@ hello".toList

/-- Round-tripping the parse image of the well-formed two-line sequence
`0 @I1@ INDI` / `1 @X@ NOTE hello` changes the id set: the original tree
has a record with id `@X@` (and value `hello`), while the reparse of its
serialization instead has a record with id `@X@ hello` — because the
emitted line `1 NOTE @X@ hello` has a value matching the `@...@` pattern,
which `formatLine` reinterprets as the id.  So no isomorphism preserving
ids can relate the two trees. -/
theorem C5_counterexample :
    c5Lines.all wellFormedSpecLine = true ∧
    ((flattenRow c5Reparse).map FamilyRow.id).contains (some c5BadId) =
      true ∧
    ((flattenRow c5Orig).map FamilyRow.id).contains (some c5BadId) =
      false ∧
    ((flattenRow c5Orig).map FamilyRow.id).contains
      (some "@X@".toList) = true ∧
    ((flattenRow c5Reparse).map FamilyRow.id).contains
      (some "@X@".toList) = false :=
  ⟨rfl, rfl, rfl, rfl, rfl⟩
